import Mathlib

/-
Verification of the natural merge sort core of coderodde/pnms
(src/parallel_natural_merge_sort.h), shallowly embedded over Lean lists.

The element sequence [first, last) and the auxiliary buffer are modelled as
Lean lists of equal length; iterator offsets become list offsets.  The
comparator is a Bool-valued binary predicate, as in the C++ template.  All
machine integers in the source are size_t; they are modelled as Nat, with an
explicit % 2 ^ 64 where the source relies on 64-bit wraparound
(get_pass_amount decrements its argument).
-/

namespace Pnms

/-- Comparator defines a strict weak order: irreflexive, transitive, and with
transitive incomparability.  This is the precondition the specification places
on every comparator handed to the sort. -/
def SWO {α : Type} (cmp : α → α → Bool) : Prop :=
  (∀ a, cmp a a = false) ∧
  (∀ a b c, cmp a b = true → cmp b c = true → cmp a c = true) ∧
  (∀ a b c, cmp a b = false → cmp b a = false → cmp b c = false → cmp c b = false →
    cmp a c = false ∧ cmp c a = false)

/-- Derived asymmetry of a strict weak order. -/
theorem SWO.asymm {α : Type} {cmp : α → α → Bool} (h : SWO cmp) {a b : α}
    (hab : cmp a b = true) : cmp b a = false := by
  cases hba : cmp b a with
  | false => rfl
  | true =>
    have : cmp a a = true := h.2.1 a b a hab hba
    rw [h.1 a] at this
    exact absurd this (by simp)

/-- Transitivity of the reflexive closure relation `cmp b a = false`
(the non-strict order in which the output is non-decreasing). -/
theorem SWO.le_trans {α : Type} {cmp : α → α → Bool} (h : SWO cmp) {a b c : α}
    (hba : cmp b a = false) (hcb : cmp c b = false) : cmp c a = false := by
  cases hca : cmp c a with
  | false => rfl
  | true =>
    exfalso
    cases hab : cmp a b with
    | true =>
      have : cmp c b = true := h.2.1 c a b hca hab
      rw [hcb] at this; exact absurd this (by simp)
    | false =>
      cases hbc : cmp b c with
      | true =>
        have : cmp b a = true := h.2.1 b c a hbc hca
        rw [hba] at this; exact absurd this (by simp)
      | false =>
        have := (h.2.2 a b c hab hba hbc hcb).2
        rw [hca] at this; exact absurd this (by simp)

/-- Totality of the non-strict order induced by a strict weak order. -/
theorem SWO.le_total {α : Type} {cmp : α → α → Bool} (h : SWO cmp) (a b : α) :
    cmp b a = false ∨ cmp a b = false := by
  cases hba : cmp b a with
  | false => exact Or.inl rfl
  | true => exact Or.inr (h.asymm hba)

/-- Two elements are equivalent for the comparator when it returns false in
both directions (equal-keyed elements in the stability property). -/
def eqv {α : Type} (cmp : α → α → Bool) (a b : α) : Bool :=
  !cmp a b && !cmp b a

theorem eqv_iff {α : Type} (cmp : α → α → Bool) (a b : α) :
    eqv cmp a b = true ↔ cmp a b = false ∧ cmp b a = false := by
  simp [eqv]

/-- Output order predicate used throughout: the sequence is non-decreasing
under the comparator (no later element strictly precedes an earlier one). -/
def SortedLe {α : Type} (cmp : α → α → Bool) (l : List α) : Prop :=
  List.Pairwise (fun a b => cmp b a = false) l

/-- Adjacent-pair form of sortedness, as the specification words it. -/
def NonDecr {α : Type} (cmp : α → α → Bool) (l : List α) : Prop :=
  List.Chain' (fun a b => cmp b a = false) l

theorem SortedLe.nonDecr {α : Type} {cmp : α → α → Bool} {l : List α}
    (h : SortedLe cmp l) : NonDecr cmp l :=
  List.Pairwise.chain' h

theorem chain'_pairwise_of_trans {α : Type} {R : α → α → Prop}
    (htrans : ∀ a b c, R a b → R b c → R a c) :
    ∀ {l : List α}, List.Chain' R l → List.Pairwise R l := by
  intro l h
  letI : IsTrans α R := ⟨htrans⟩
  exact List.chain'_iff_pairwise.mp h

theorem NonDecr.sortedLe {α : Type} {cmp : α → α → Bool} {l : List α}
    (hswo : SWO cmp) (h : NonDecr cmp l) : SortedLe cmp l :=
  chain'_pairwise_of_trans (R := fun a b => cmp b a = false)
    (fun _ _ _ hab hbc => hswo.le_trans hab hbc) h

/-- Fuel-indexed two-way merge.  One unit of fuel is spent per emitted
element, so fuel `xs.length + ys.length` always suffices. -/
def mergeFuel {α : Type} (cmp : α → α → Bool) : Nat → List α → List α → List α
  | 0, xs, ys => xs ++ ys
  | _ + 1, [], ys => ys
  | _ + 1, xs, [] => xs
  | fuel + 1, x :: xs, y :: ys =>
    if cmp y x then y :: mergeFuel cmp fuel (x :: xs) ys
    else x :: mergeFuel cmp fuel xs (y :: ys)

/-- std::merge as invoked at parallel_natural_merge_sort.h:233 and :341:
copies the right-run element exactly when cmp(right, left) holds, so on ties
the left-run element is emitted first (stability of the merge step). -/
def mergeLists {α : Type} (cmp : α → α → Bool) (xs ys : List α) : List α :=
  mergeFuel cmp (xs.length + ys.length) xs ys

theorem mergeFuel_fuel_irrel {α : Type} (cmp : α → α → Bool) :
    ∀ (f g : Nat) (xs ys : List α), xs.length + ys.length ≤ f →
      xs.length + ys.length ≤ g → mergeFuel cmp f xs ys = mergeFuel cmp g xs ys := by
  intro f
  induction f with
  | zero =>
    intro g xs ys hf _
    have hx : xs = [] := by
      cases xs with
      | nil => rfl
      | cons a as => simp at hf
    have hy : ys = [] := by
      cases ys with
      | nil => rfl
      | cons a as => simp at hf
    subst hx; subst hy
    cases g <;> rfl
  | succ f ih =>
    intro g xs ys hf hg
    cases g with
    | zero =>
      have hx : xs = [] := by
        cases xs with
        | nil => rfl
        | cons a as => simp at hg
      have hy : ys = [] := by
        cases ys with
        | nil => rfl
        | cons a as => simp at hg
      subst hx; subst hy; rfl
    | succ g =>
      cases xs with
      | nil => cases ys <;> rfl
      | cons x xs =>
        cases ys with
        | nil => rfl
        | cons y ys =>
          simp only [mergeFuel]
          cases hc : cmp y x with
          | true =>
            simp only [if_true]
            have := ih g (x :: xs) ys (by simp at hf ⊢; omega) (by simp at hg ⊢; omega)
            rw [this]
          | false =>
            simp only [Bool.false_eq_true, if_false]
            have := ih g xs (y :: ys) (by simp at hf ⊢; omega) (by simp at hg ⊢; omega)
            rw [this]

theorem mergeLists_nil_left {α : Type} (cmp : α → α → Bool) (ys : List α) :
    mergeLists cmp [] ys = ys := by
  cases ys <;> rfl

theorem mergeLists_nil_right {α : Type} (cmp : α → α → Bool) (xs : List α) :
    mergeLists cmp xs [] = xs := by
  cases xs <;> rfl

theorem mergeLists_cons_cons {α : Type} (cmp : α → α → Bool) (x y : α)
    (xs ys : List α) :
    mergeLists cmp (x :: xs) (y :: ys) =
      if cmp y x then y :: mergeLists cmp (x :: xs) ys
      else x :: mergeLists cmp xs (y :: ys) := by
  show mergeFuel cmp ((x :: xs).length + (y :: ys).length) (x :: xs) (y :: ys) = _
  have hlen : (x :: xs).length + (y :: ys).length =
      ((x :: xs).length + ys.length) + 1 := by simp; omega
  rw [hlen]
  simp only [mergeFuel]
  cases hc : cmp y x with
  | true =>
    simp only [if_true]
    rfl
  | false =>
    simp only [Bool.false_eq_true, if_false]
    have : mergeFuel cmp ((x :: xs).length + ys.length) xs (y :: ys) =
        mergeFuel cmp (xs.length + (y :: ys).length) xs (y :: ys) := by
      apply mergeFuel_fuel_irrel cmp <;> simp <;> omega
    rw [this]
    rfl

theorem mergeLists_perm_aux {α : Type} (cmp : α → α → Bool) :
    ∀ (n : Nat) (xs ys : List α), xs.length + ys.length = n →
      (mergeLists cmp xs ys).Perm (xs ++ ys) := by
  intro n
  induction n using Nat.strong_induction_on with
  | _ n ih =>
    intro xs ys hn
    cases xs with
    | nil => rw [mergeLists_nil_left]; simp
    | cons x xs =>
      cases ys with
      | nil => rw [mergeLists_nil_right]; simp
      | cons y ys =>
        rw [mergeLists_cons_cons]
        cases hc : cmp y x with
        | true =>
          simp only [if_true]
          have hperm := ih ((x :: xs).length + ys.length) (by simp at hn ⊢; omega)
            (x :: xs) ys rfl
          exact (hperm.cons y).trans (@List.perm_middle α y (x :: xs) ys).symm
        | false =>
          simp only [Bool.false_eq_true, if_false]
          have hperm := ih (xs.length + (y :: ys).length) (by simp at hn ⊢; omega)
            xs (y :: ys) rfl
          simpa using hperm.cons x

theorem mergeLists_perm {α : Type} (cmp : α → α → Bool) (xs ys : List α) :
    (mergeLists cmp xs ys).Perm (xs ++ ys) :=
  mergeLists_perm_aux cmp (xs.length + ys.length) xs ys rfl

theorem mergeLists_length {α : Type} (cmp : α → α → Bool) (xs ys : List α) :
    (mergeLists cmp xs ys).length = xs.length + ys.length := by
  have := (mergeLists_perm cmp xs ys).length_eq
  simpa using this

theorem mem_mergeLists {α : Type} {cmp : α → α → Bool} {xs ys : List α} {a : α} :
    a ∈ mergeLists cmp xs ys ↔ a ∈ xs ∨ a ∈ ys := by
  rw [(mergeLists_perm cmp xs ys).mem_iff]
  simp

theorem mergeLists_sorted_aux {α : Type} {cmp : α → α → Bool} (hswo : SWO cmp) :
    ∀ (n : Nat) (xs ys : List α), xs.length + ys.length = n →
      SortedLe cmp xs → SortedLe cmp ys → SortedLe cmp (mergeLists cmp xs ys) := by
  intro n
  induction n using Nat.strong_induction_on with
  | _ n ih =>
    intro xs ys hn hxs hys
    cases xs with
    | nil => rw [mergeLists_nil_left]; exact hys
    | cons x xs =>
      cases ys with
      | nil => rw [mergeLists_nil_right]; exact hxs
      | cons y ys =>
        rw [mergeLists_cons_cons]
        rw [SortedLe, List.pairwise_cons] at hxs hys
        cases hc : cmp y x with
        | true =>
          simp only [if_true]
          rw [SortedLe, List.pairwise_cons]
          constructor
          · intro z hz
            rcases mem_mergeLists.mp hz with hzx | hzy
            · rcases List.mem_cons.mp hzx with rfl | hzxs
              · exact hswo.asymm hc
              · exact hswo.le_trans (hswo.asymm hc) (hxs.1 z hzxs)
            · exact hys.1 z hzy
          · exact ih ((x :: xs).length + ys.length) (by simp at hn ⊢; omega)
              (x :: xs) ys rfl (List.pairwise_cons.mpr hxs) hys.2
        | false =>
          simp only [Bool.false_eq_true, if_false]
          rw [SortedLe, List.pairwise_cons]
          constructor
          · intro z hz
            rcases mem_mergeLists.mp hz with hzx | hzy
            · exact hxs.1 z hzx
            · rcases List.mem_cons.mp hzy with rfl | hzys
              · exact hc
              · exact hswo.le_trans hc (hys.1 z hzys)
          · exact ih (xs.length + (y :: ys).length) (by simp at hn ⊢; omega)
              xs (y :: ys) rfl hxs.2 (List.pairwise_cons.mpr hys)

theorem mergeLists_sorted {α : Type} {cmp : α → α → Bool} (hswo : SWO cmp)
    {xs ys : List α} (hxs : SortedLe cmp xs) (hys : SortedLe cmp ys) :
    SortedLe cmp (mergeLists cmp xs ys) :=
  mergeLists_sorted_aux hswo (xs.length + ys.length) xs ys rfl hxs hys

theorem mergeLists_filter_aux {α : Type} {cmp : α → α → Bool} (hswo : SWO cmp)
    (e : α) :
    ∀ (n : Nat) (xs ys : List α), xs.length + ys.length = n →
      SortedLe cmp xs →
      (mergeLists cmp xs ys).filter (eqv cmp e) =
        xs.filter (eqv cmp e) ++ ys.filter (eqv cmp e) := by
  intro n
  induction n using Nat.strong_induction_on with
  | _ n ih =>
    intro xs ys hn hxs
    cases xs with
    | nil => rw [mergeLists_nil_left]; simp
    | cons x xs =>
      cases ys with
      | nil => rw [mergeLists_nil_right]; simp
      | cons y ys =>
        rw [mergeLists_cons_cons]
        cases hc : cmp y x with
        | true =>
          simp only [if_true]
          have hrec := ih ((x :: xs).length + ys.length) (by simp at hn ⊢; omega)
            (x :: xs) ys rfl hxs
          cases hey : eqv cmp e y with
          | false =>
            rw [List.filter_cons_of_neg (by simp [hey]), hrec]
            congr 1
            exact (List.filter_cons_of_neg (by simp [hey])).symm
          | true =>
            have hnil : (x :: xs).filter (eqv cmp e) = [] := by
              apply List.filter_eq_nil_iff.mpr
              intro z hz
              simp only [Bool.not_eq_true]
              cases hez : eqv cmp e z with
              | false => rfl
              | true =>
                exfalso
                have h1 : cmp z x = false := by
                  rcases List.mem_cons.mp hz with rfl | hzxs
                  · exact hswo.1 z
                  · exact (List.pairwise_cons.mp hxs).1 z hzxs
                have h2 := (eqv_iff cmp e z).mp hez
                have h3 := (eqv_iff cmp e y).mp hey
                have h4 : cmp e x = false := hswo.le_trans h1 h2.1
                have h5 : cmp y x = false := hswo.le_trans h4 h3.2
                rw [hc] at h5
                exact absurd h5 (by simp)
            rw [List.filter_cons_of_pos (by simp [hey]), hrec, hnil]
            have : (y :: ys).filter (eqv cmp e) = y :: ys.filter (eqv cmp e) :=
              List.filter_cons_of_pos (by simp [hey])
            rw [this]
            simp
        | false =>
          simp only [Bool.false_eq_true, if_false]
          have hrec := ih (xs.length + (y :: ys).length) (by simp at hn ⊢; omega)
            xs (y :: ys) rfl (List.pairwise_cons.mp hxs).2
          cases hex : eqv cmp e x with
          | false =>
            rw [List.filter_cons_of_neg (by simp [hex]), hrec]
            have : (x :: xs).filter (eqv cmp e) = xs.filter (eqv cmp e) :=
              List.filter_cons_of_neg (by simp [hex])
            rw [this]
          | true =>
            rw [List.filter_cons_of_pos (by simp [hex]), hrec]
            have : (x :: xs).filter (eqv cmp e) = x :: xs.filter (eqv cmp e) :=
              List.filter_cons_of_pos (by simp [hex])
            rw [this]
            simp

theorem mergeLists_filter {α : Type} {cmp : α → α → Bool} (hswo : SWO cmp)
    (e : α) {xs ys : List α} (hxs : SortedLe cmp xs) :
    (mergeLists cmp xs ys).filter (eqv cmp e) =
      xs.filter (eqv cmp e) ++ ys.filter (eqv cmp e) :=
  mergeLists_filter_aux hswo e (xs.length + ys.length) xs ys rfl hxs

/-- One merge pass over the run list: merge adjacent pairs front to back; an
odd trailing run is carried over unchanged (the copy-through at
parallel_natural_merge_sort.h:252). -/
def mergePairs {α : Type} (cmp : α → α → Bool) : List (List α) → List (List α)
  | [] => []
  | [r] => [r]
  | a :: b :: rest => mergeLists cmp a b :: mergePairs cmp rest

theorem mergePairs_length {α : Type} (cmp : α → α → Bool) :
    ∀ (n : Nat) (rs : List (List α)), rs.length = n →
      (mergePairs cmp rs).length = (rs.length + 1) / 2 := by
  intro n
  induction n using Nat.strong_induction_on with
  | _ n ih =>
    intro rs hn
    match rs with
    | [] => simp [mergePairs]
    | [r] => simp [mergePairs]
    | a :: b :: rest =>
      have := ih rest.length (by simp at hn ⊢; omega) rest rfl
      simp only [mergePairs, List.length_cons, this]
      omega

theorem mergePairs_flatten_perm {α : Type} (cmp : α → α → Bool) :
    ∀ (n : Nat) (rs : List (List α)), rs.length = n →
      (mergePairs cmp rs).flatten.Perm rs.flatten := by
  intro n
  induction n using Nat.strong_induction_on with
  | _ n ih =>
    intro rs hn
    match rs with
    | [] => simp [mergePairs]
    | [r] => simp [mergePairs]
    | a :: b :: rest =>
      have hrec := ih rest.length (by simp at hn ⊢; omega) rest rfl
      simp only [mergePairs, List.flatten_cons]
      have h1 : (mergeLists cmp a b ++ (mergePairs cmp rest).flatten).Perm
          ((a ++ b) ++ (mergePairs cmp rest).flatten) :=
        (mergeLists_perm cmp a b).append_right _
      have h2 : ((a ++ b) ++ (mergePairs cmp rest).flatten).Perm
          ((a ++ b) ++ rest.flatten) := hrec.append_left _
      simpa using h1.trans h2

theorem mergePairs_sorted {α : Type} {cmp : α → α → Bool} (hswo : SWO cmp) :
    ∀ (n : Nat) (rs : List (List α)), rs.length = n →
      (∀ r ∈ rs, SortedLe cmp r) → ∀ r ∈ mergePairs cmp rs, SortedLe cmp r := by
  intro n
  induction n using Nat.strong_induction_on with
  | _ n ih =>
    intro rs hn hrs
    match rs with
    | [] => simp [mergePairs]
    | [r] => simpa [mergePairs] using hrs
    | a :: b :: rest =>
      intro r hr
      simp only [mergePairs, List.mem_cons] at hr
      rcases hr with rfl | hr
      · exact mergeLists_sorted hswo (hrs a (by simp)) (hrs b (by simp))
      · exact ih rest.length (by simp at hn ⊢; omega) rest rfl
          (fun s hs => hrs s (by simp [hs])) r hr

theorem mergePairs_filter {α : Type} {cmp : α → α → Bool} (hswo : SWO cmp)
    (e : α) :
    ∀ (n : Nat) (rs : List (List α)), rs.length = n →
      (∀ r ∈ rs, SortedLe cmp r) →
      (mergePairs cmp rs).flatten.filter (eqv cmp e) =
        rs.flatten.filter (eqv cmp e) := by
  intro n
  induction n using Nat.strong_induction_on with
  | _ n ih =>
    intro rs hn hrs
    match rs with
    | [] => simp [mergePairs]
    | [r] => simp [mergePairs]
    | a :: b :: rest =>
      have hrec := ih rest.length (by simp at hn ⊢; omega) rest rfl
        (fun s hs => hrs s (by simp [hs]))
      simp only [mergePairs, List.flatten_cons, List.filter_append]
      rw [mergeLists_filter hswo e (hrs a (by simp)), hrec]
      simp [List.filter_append]

/-- Iterated merge passes until a single run remains: the abstract view of the
scheduler loop at parallel_natural_merge_sort.h:227-271. -/
def mergeAll {α : Type} (cmp : α → α → Bool) : List (List α) → List α
  | [] => []
  | [r] => r
  | a :: b :: rest => mergeAll cmp (mergePairs cmp (a :: b :: rest))
termination_by rs => rs.length
decreasing_by
  have := mergePairs_length cmp (a :: b :: rest).length (a :: b :: rest) rfl
  simp only [List.length_cons] at this ⊢
  omega

theorem mergeAll_step {α : Type} (cmp : α → α → Bool) (rs : List (List α))
    (h : 2 ≤ rs.length) : mergeAll cmp rs = mergeAll cmp (mergePairs cmp rs) := by
  match rs with
  | [] => simp at h
  | [r] => simp at h
  | a :: b :: rest => rw [mergeAll]

theorem mergeAll_perm {α : Type} (cmp : α → α → Bool) :
    ∀ (n : Nat) (rs : List (List α)), rs.length = n →
      (mergeAll cmp rs).Perm rs.flatten := by
  intro n
  induction n using Nat.strong_induction_on with
  | _ n ih =>
    intro rs hn
    match rs with
    | [] => simp [mergeAll]
    | [r] => simp [mergeAll]
    | a :: b :: rest =>
      rw [mergeAll_step cmp (a :: b :: rest) (by simp)]
      have hlen := mergePairs_length cmp (a :: b :: rest).length (a :: b :: rest) rfl
      have hrec := ih (mergePairs cmp (a :: b :: rest)).length
        (by rw [hlen]; simp at hn ⊢; omega) (mergePairs cmp (a :: b :: rest)) rfl
      exact hrec.trans (mergePairs_flatten_perm cmp _ (a :: b :: rest) rfl)

theorem mergeAll_sorted {α : Type} {cmp : α → α → Bool} (hswo : SWO cmp) :
    ∀ (n : Nat) (rs : List (List α)), rs.length = n →
      (∀ r ∈ rs, SortedLe cmp r) → SortedLe cmp (mergeAll cmp rs) := by
  intro n
  induction n using Nat.strong_induction_on with
  | _ n ih =>
    intro rs hn hrs
    match rs with
    | [] => simp [mergeAll, SortedLe]
    | [r] => simpa [mergeAll] using hrs r (by simp)
    | a :: b :: rest =>
      rw [mergeAll_step cmp (a :: b :: rest) (by simp)]
      have hlen := mergePairs_length cmp (a :: b :: rest).length (a :: b :: rest) rfl
      exact ih (mergePairs cmp (a :: b :: rest)).length
        (by rw [hlen]; simp at hn ⊢; omega) (mergePairs cmp (a :: b :: rest)) rfl
        (mergePairs_sorted hswo (a :: b :: rest).length (a :: b :: rest) rfl hrs)

theorem mergeAll_filter {α : Type} {cmp : α → α → Bool} (hswo : SWO cmp) (e : α) :
    ∀ (n : Nat) (rs : List (List α)), rs.length = n →
      (∀ r ∈ rs, SortedLe cmp r) →
      (mergeAll cmp rs).filter (eqv cmp e) = rs.flatten.filter (eqv cmp e) := by
  intro n
  induction n using Nat.strong_induction_on with
  | _ n ih =>
    intro rs hn hrs
    match rs with
    | [] => simp [mergeAll]
    | [r] => simp [mergeAll]
    | a :: b :: rest =>
      rw [mergeAll_step cmp (a :: b :: rest) (by simp)]
      have hlen := mergePairs_length cmp (a :: b :: rest).length (a :: b :: rest) rfl
      have hrec := ih (mergePairs cmp (a :: b :: rest)).length
        (by rw [hlen]; simp at hn ⊢; omega) (mergePairs cmp (a :: b :: rest)) rfl
        (mergePairs_sorted hswo (a :: b :: rest).length (a :: b :: rest) rfl hrs)
      rw [hrec]
      exact mergePairs_filter hswo e (a :: b :: rest).length (a :: b :: rest) rfl hrs

/-- Scanner state of the loop at parallel_natural_merge_sort.h:113-143.
`start h` is the loop head about to compare `h` with its successor; `asc` and
`desc` are the two inner extension loops, holding the elements of the current
run read so far (newest first, so a finished descending run is emitted as
`cur :: acc`, which is exactly its reversal). -/
inductive ScanState (α : Type) where
  | start (head : α)
  | asc (acc : List α) (cur : α)
  | desc (acc : List α) (cur : α)

/-- Run scanner: one forward pass that partitions the input into maximal runs,
with descending runs emitted reversed (std::reverse at line 127) and a final
orphan element emitted as a run of length 1 (line 148). -/
def scanGo {α : Type} (cmp : α → α → Bool) : ScanState α → List α → List (List α)
  | .start h, [] => [[h]]
  | .asc acc cur, [] => [(cur :: acc).reverse]
  | .desc acc cur, [] => [cur :: acc]
  | .start h, y :: rest =>
    if cmp y h then scanGo cmp (.desc [h] y) rest else scanGo cmp (.asc [h] y) rest
  | .asc acc cur, y :: rest =>
    if cmp y cur then (cur :: acc).reverse :: scanGo cmp (.start y) rest
    else scanGo cmp (.asc (cur :: acc) y) rest
  | .desc acc cur, y :: rest =>
    if cmp y cur then scanGo cmp (.desc (cur :: acc) y) rest
    else (cur :: acc) :: scanGo cmp (.start y) rest

/-- Runs of the range in left-to-right scan order, as stored in the array
after the scan (descending runs already reversed in place). -/
def scanRuns {α : Type} (cmp : α → α → Bool) : List α → List (List α)
  | [] => []
  | x :: rest => scanGo cmp (.start x) rest

/-- Elements held in a scanner state (in some order). -/
def stElems {α : Type} : ScanState α → List α
  | .start h => [h]
  | .asc acc cur => cur :: acc
  | .desc acc cur => cur :: acc

theorem scanGo_flatten_perm {α : Type} (cmp : α → α → Bool) :
    ∀ (l : List α) (st : ScanState α),
      (scanGo cmp st l).flatten.Perm (stElems st ++ l) := by
  intro l
  induction l with
  | nil =>
    intro st
    match st with
    | .start h => simp [scanGo, stElems]
    | .asc acc cur => simpa [scanGo, stElems] using (List.reverse_perm (cur :: acc))
    | .desc acc cur => simp [scanGo, stElems]
  | cons y rest ih =>
    intro st
    match st with
    | .start h =>
      simp only [scanGo, stElems]
      cases hc : cmp y h with
      | true =>
        simp only [if_true]
        have := ih (.desc [h] y)
        simp only [stElems] at this
        refine this.trans ?_
        have : (y :: [h] ++ rest).Perm ([h] ++ y :: rest) :=
          (@List.perm_middle α y [h] rest).symm
        simpa using this
      | false =>
        simp only [Bool.false_eq_true, if_false]
        have := ih (.asc [h] y)
        simp only [stElems] at this
        refine this.trans ?_
        have : (y :: [h] ++ rest).Perm ([h] ++ y :: rest) :=
          (@List.perm_middle α y [h] rest).symm
        simpa using this
    | .asc acc cur =>
      simp only [scanGo, stElems]
      cases hc : cmp y cur with
      | true =>
        simp only [if_true, List.flatten_cons]
        have hrest := ih (.start y)
        simp only [stElems] at hrest
        have h1 : ((cur :: acc).reverse ++ (scanGo cmp (.start y) rest).flatten).Perm
            ((cur :: acc).reverse ++ ([y] ++ rest)) := hrest.append_left _
        refine h1.trans ?_
        have h2 : ((cur :: acc).reverse ++ ([y] ++ rest)).Perm
            ((cur :: acc) ++ ([y] ++ rest)) :=
          (List.reverse_perm (cur :: acc)).append_right _
        refine h2.trans ?_
        exact List.Perm.refl _
      | false =>
        simp only [Bool.false_eq_true, if_false]
        have := ih (.asc (cur :: acc) y)
        simp only [stElems] at this
        refine this.trans ?_
        exact (@List.perm_middle α y (cur :: acc) rest).symm
    | .desc acc cur =>
      simp only [scanGo, stElems]
      cases hc : cmp y cur with
      | true =>
        simp only [if_true]
        have := ih (.desc (cur :: acc) y)
        simp only [stElems] at this
        refine this.trans ?_
        exact (@List.perm_middle α y (cur :: acc) rest).symm
      | false =>
        simp only [Bool.false_eq_true, if_false, List.flatten_cons]
        have hrest := ih (.start y)
        simp only [stElems] at hrest
        have h1 : ((cur :: acc) ++ (scanGo cmp (.start y) rest).flatten).Perm
            ((cur :: acc) ++ ([y] ++ rest)) := hrest.append_left _
        refine h1.trans ?_
        exact List.Perm.refl _

theorem scanRuns_flatten_perm {α : Type} (cmp : α → α → Bool) (xs : List α) :
    (scanRuns cmp xs).flatten.Perm xs := by
  cases xs with
  | nil => simp [scanRuns]
  | cons x rest =>
    have := scanGo_flatten_perm cmp rest (.start x)
    simpa [scanRuns, stElems] using this

theorem scanRuns_flatten_length {α : Type} (cmp : α → α → Bool) (xs : List α) :
    (scanRuns cmp xs).flatten.length = xs.length :=
  (scanRuns_flatten_perm cmp xs).length_eq

theorem scanRuns_sum_lengths {α : Type} (cmp : α → α → Bool) (xs : List α) :
    ((scanRuns cmp xs).map List.length).sum = xs.length := by
  rw [← List.length_flatten]
  exact scanRuns_flatten_length cmp xs

/-- Ordering invariant of a scanner state: the pending run, newest element
first, is a non-ascending chain in the ascending phase and a strictly
ascending chain in the descending phase. -/
def stInvSorted {α : Type} (cmp : α → α → Bool) : ScanState α → Prop
  | .start _ => True
  | .asc acc cur => List.Chain' (fun a b => cmp a b = false) (cur :: acc)
  | .desc acc cur => List.Chain' (fun a b => cmp a b = true) (cur :: acc)

theorem scanGo_runs_sorted {α : Type} {cmp : α → α → Bool} (hswo : SWO cmp) :
    ∀ (l : List α) (st : ScanState α), stInvSorted cmp st →
      ∀ r ∈ scanGo cmp st l, SortedLe cmp r := by
  intro l
  induction l with
  | nil =>
    intro st hst r hr
    match st with
    | .start h =>
      simp only [scanGo, List.mem_singleton] at hr
      subst hr; simp [SortedLe]
    | .asc acc cur =>
      simp only [scanGo, List.mem_singleton] at hr
      subst hr
      refine NonDecr.sortedLe hswo ?_
      rw [NonDecr, List.chain'_reverse]
      exact hst
    | .desc acc cur =>
      simp only [scanGo, List.mem_singleton] at hr
      subst hr
      refine NonDecr.sortedLe hswo ?_
      exact List.Chain'.imp (fun a b hab => hswo.asymm hab) hst
  | cons y rest ih =>
    intro st hst r hr
    match st with
    | .start h =>
      simp only [scanGo] at hr
      cases hc : cmp y h with
      | true =>
        rw [hc, if_pos rfl] at hr
        exact ih (.desc [h] y) (by simp [stInvSorted, hc]) r hr
      | false =>
        rw [hc, if_neg (by simp)] at hr
        exact ih (.asc [h] y) (by simp [stInvSorted, hc]) r hr
    | .asc acc cur =>
      simp only [scanGo] at hr
      cases hc : cmp y cur with
      | true =>
        rw [hc, if_pos rfl] at hr
        rcases List.mem_cons.mp hr with rfl | hr
        · refine NonDecr.sortedLe hswo ?_
          rw [NonDecr, List.chain'_reverse]
          exact hst
        · exact ih (.start y) trivial r hr
      | false =>
        rw [hc, if_neg (by simp)] at hr
        refine ih (.asc (cur :: acc) y) ?_ r hr
        exact List.chain'_cons.mpr ⟨hc, hst⟩
    | .desc acc cur =>
      simp only [scanGo] at hr
      cases hc : cmp y cur with
      | true =>
        rw [hc, if_pos rfl] at hr
        refine ih (.desc (cur :: acc) y) ?_ r hr
        exact List.chain'_cons.mpr ⟨hc, hst⟩
      | false =>
        rw [hc, if_neg (by simp)] at hr
        rcases List.mem_cons.mp hr with rfl | hr
        · refine NonDecr.sortedLe hswo ?_
          exact List.Chain'.imp (fun a b hab => hswo.asymm hab) hst
        · exact ih (.start y) trivial r hr

theorem scanRuns_sorted {α : Type} {cmp : α → α → Bool} (hswo : SWO cmp)
    (xs : List α) : ∀ r ∈ scanRuns cmp xs, SortedLe cmp r := by
  cases xs with
  | nil => simp [scanRuns]
  | cons x rest => exact scanGo_runs_sorted hswo rest (.start x) trivial

theorem filter_reverse_of_pairwise_strict {α : Type} {cmp : α → α → Bool}
    (hswo : SWO cmp) (e : α) :
    ∀ (m : List α), List.Pairwise (fun a b => cmp a b = true) m →
      m.reverse.filter (eqv cmp e) = m.filter (eqv cmp e) := by
  intro m
  induction m with
  | nil => simp
  | cons x m ih =>
    intro hp
    rw [List.pairwise_cons] at hp
    have htail : m.filter (eqv cmp e) = [] ∨ eqv cmp e x = false := by
      cases hex : eqv cmp e x with
      | false => exact Or.inr rfl
      | true =>
        refine Or.inl (List.filter_eq_nil_iff.mpr ?_)
        intro z hz
        simp only [Bool.not_eq_true]
        cases hez : eqv cmp e z with
        | false => rfl
        | true =>
          exfalso
          have h1 := (eqv_iff cmp e x).mp hex
          have h2 := (eqv_iff cmp e z).mp hez
          have h3 : cmp x z = false := hswo.le_trans h2.1 h1.2
          rw [hp.1 z hz] at h3
          exact absurd h3 (by simp)
    have hrevtail : m.reverse.filter (eqv cmp e) = m.filter (eqv cmp e) := ih hp.2
    cases hex : eqv cmp e x with
    | false =>
      rw [List.filter_cons_of_neg (by simp [hex]), List.reverse_cons,
        List.filter_append, hrevtail, List.filter_cons_of_neg (by simp [hex])]
      simp
    | true =>
      rcases htail with htail | htail
      · rw [List.filter_cons_of_pos (by simp [hex]), List.reverse_cons,
          List.filter_append, hrevtail, htail, List.filter_cons_of_pos (by simp [hex])]
        simp
      · rw [hex] at htail; exact absurd htail (by simp)

/-- Elements of a scanner state in their original array order. -/
def stOrig {α : Type} : ScanState α → List α
  | .start h => [h]
  | .asc acc cur => (cur :: acc).reverse
  | .desc acc cur => (cur :: acc).reverse

/-- Invariant needed for stability: a pending descending run is a strict
chain, so it contains no two equivalent elements. -/
def stInvDesc {α : Type} (cmp : α → α → Bool) : ScanState α → Prop
  | .desc acc cur => List.Chain' (fun a b => cmp a b = true) (cur :: acc)
  | _ => True

theorem filter_pair {α : Type} (p : α → Bool) (a b : α) :
    List.filter p [a, b] = List.filter p [a] ++ List.filter p [b] := by
  rw [show ([a, b] : List α) = [a] ++ [b] from rfl, List.filter_append]

theorem scanGo_filter {α : Type} {cmp : α → α → Bool} (hswo : SWO cmp) (e : α) :
    ∀ (l : List α) (st : ScanState α), stInvDesc cmp st →
      (scanGo cmp st l).flatten.filter (eqv cmp e) =
        (stOrig st).filter (eqv cmp e) ++ l.filter (eqv cmp e) := by
  intro l
  induction l with
  | nil =>
    intro st hst
    match st with
    | .start h => simp [scanGo, stOrig]
    | .asc acc cur => simp [scanGo, stOrig]
    | .desc acc cur =>
      simp only [scanGo, List.flatten_cons, List.flatten_nil, List.append_nil,
        stOrig, List.filter_nil]
      rw [filter_reverse_of_pairwise_strict hswo e (cur :: acc)
        (chain'_pairwise_of_trans (fun a b c hab hbc => hswo.2.1 a b c hab hbc) hst)]
  | cons y rest ih =>
    intro st hst
    have hsplit : (y :: rest).filter (eqv cmp e) =
        [y].filter (eqv cmp e) ++ rest.filter (eqv cmp e) := by
      rw [show y :: rest = [y] ++ rest from rfl, List.filter_append]
    match st with
    | .start h =>
      simp only [scanGo]
      cases hc : cmp y h with
      | true =>
        rw [if_pos rfl]
        rw [ih (.desc [h] y) (by simp [stInvDesc, hc])]
        simp [stOrig, hsplit, filter_pair, List.append_assoc]
      | false =>
        simp only [Bool.false_eq_true, if_false]
        rw [ih (.asc [h] y) trivial]
        simp [stOrig, hsplit, filter_pair, List.append_assoc]
    | .asc acc cur =>
      simp only [scanGo]
      cases hc : cmp y cur with
      | true =>
        rw [if_pos rfl]
        simp only [List.flatten_cons, List.filter_append]
        rw [ih (.start y) trivial]
        simp [stOrig, hsplit, List.append_assoc]
      | false =>
        simp only [Bool.false_eq_true, if_false]
        rw [ih (.asc (cur :: acc) y) trivial]
        simp only [stOrig, hsplit]
        rw [show y :: (cur :: acc) = [y] ++ (cur :: acc) from rfl]
        simp only [List.reverse_append, List.filter_append, List.reverse_singleton]
        simp [List.append_assoc]
    | .desc acc cur =>
      simp only [scanGo]
      cases hc : cmp y cur with
      | true =>
        rw [if_pos rfl]
        rw [ih (.desc (cur :: acc) y) (by
          simp only [stInvDesc]
          exact List.chain'_cons.mpr ⟨hc, hst⟩)]
        simp only [stOrig, hsplit]
        rw [show y :: (cur :: acc) = [y] ++ (cur :: acc) from rfl]
        simp only [List.reverse_append, List.filter_append, List.reverse_singleton]
        simp [List.append_assoc]
      | false =>
        simp only [Bool.false_eq_true, if_false]
        simp only [List.flatten_cons, List.filter_append]
        rw [ih (.start y) trivial]
        simp only [stOrig, hsplit]
        rw [filter_reverse_of_pairwise_strict hswo e (cur :: acc)
          (chain'_pairwise_of_trans (fun a b c hab hbc => hswo.2.1 a b c hab hbc) hst)]

theorem scanRuns_filter {α : Type} {cmp : α → α → Bool} (hswo : SWO cmp) (e : α)
    (xs : List α) :
    (scanRuns cmp xs).flatten.filter (eqv cmp e) = xs.filter (eqv cmp e) := by
  cases xs with
  | nil => simp [scanRuns]
  | cons x rest =>
    rw [scanRuns, scanGo_filter hswo e rest (.start x) trivial]
    simp only [stOrig]
    rw [show x :: rest = [x] ++ rest from rfl, List.filter_append]

theorem scanGo_ne_nil {α : Type} (cmp : α → α → Bool) :
    ∀ (l : List α) (st : ScanState α), scanGo cmp st l ≠ [] := by
  intro l
  induction l with
  | nil => intro st; match st with
    | .start h => simp [scanGo]
    | .asc acc cur => simp [scanGo]
    | .desc acc cur => simp [scanGo]
  | cons y rest ih =>
    intro st
    match st with
    | .start h =>
      simp only [scanGo]
      cases hc : cmp y h with
      | true => rw [if_pos rfl]; exact ih (.desc [h] y)
      | false =>
        simp only [Bool.false_eq_true, if_false]
        exact ih (.asc [h] y)
    | .asc acc cur =>
      simp only [scanGo]
      cases hc : cmp y cur with
      | true => rw [if_pos rfl]; simp
      | false =>
        simp only [Bool.false_eq_true, if_false]
        exact ih (.asc (cur :: acc) y)
    | .desc acc cur =>
      simp only [scanGo]
      cases hc : cmp y cur with
      | true => rw [if_pos rfl]; exact ih (.desc (cur :: acc) y)
      | false =>
        simp only [Bool.false_eq_true, if_false]
        simp

theorem scanRuns_ne_nil {α : Type} (cmp : α → α → Bool) {xs : List α}
    (h : xs ≠ []) : scanRuns cmp xs ≠ [] := by
  cases xs with
  | nil => exact absurd rfl h
  | cons x rest => exact scanGo_ne_nil cmp rest (.start x)

/-- Number of consumed elements of the current run held by a scanner state. -/
def stWt {α : Type} : ScanState α → Nat
  | .start _ => 1
  | .asc acc _ => acc.length + 1
  | .desc acc _ => acc.length + 1

/-- Accumulators of in-run states are nonempty (a run in progress has at
least two consumed elements). -/
def stAccNe {α : Type} : ScanState α → Prop
  | .start _ => True
  | .asc acc _ => acc ≠ []
  | .desc acc _ => acc ≠ []

theorem scanGo_count {α : Type} (cmp : α → α → Bool) :
    ∀ (l : List α) (st : ScanState α), stAccNe st →
      2 * (scanGo cmp st l).length ≤ stWt st + l.length + 1 := by
  intro l
  induction l with
  | nil =>
    intro st hst
    match st with
    | .start h => simp [scanGo, stWt]
    | .asc acc cur =>
      have : acc.length ≥ 1 := List.length_pos.mpr hst
      simp only [scanGo, List.length_singleton, stWt, List.length_nil]
      omega
    | .desc acc cur =>
      have : acc.length ≥ 1 := List.length_pos.mpr hst
      simp only [scanGo, List.length_singleton, stWt, List.length_nil]
      omega
  | cons y rest ih =>
    intro st hst
    match st with
    | .start h =>
      simp only [scanGo]
      cases hc : cmp y h with
      | true =>
        rw [if_pos rfl]
        have := ih (.desc [h] y) (by simp [stAccNe])
        simp only [stWt, List.length_singleton, List.length_cons, List.length_nil] at this ⊢
        omega
      | false =>
        simp only [Bool.false_eq_true, if_false]
        have := ih (.asc [h] y) (by simp [stAccNe])
        simp only [stWt, List.length_singleton, List.length_cons, List.length_nil] at this ⊢
        omega
    | .asc acc cur =>
      have hacc : acc.length ≥ 1 := List.length_pos.mpr hst
      simp only [scanGo]
      cases hc : cmp y cur with
      | true =>
        rw [if_pos rfl]
        have := ih (.start y) trivial
        simp only [stWt, List.length_cons] at this ⊢
        omega
      | false =>
        simp only [Bool.false_eq_true, if_false]
        have := ih (.asc (cur :: acc) y) (by simp [stAccNe])
        simp only [stWt, List.length_cons] at this ⊢
        omega
    | .desc acc cur =>
      have hacc : acc.length ≥ 1 := List.length_pos.mpr hst
      simp only [scanGo]
      cases hc : cmp y cur with
      | true =>
        rw [if_pos rfl]
        have := ih (.desc (cur :: acc) y) (by simp [stAccNe])
        simp only [stWt, List.length_cons] at this ⊢
        omega
      | false =>
        simp only [Bool.false_eq_true, if_false]
        have := ih (.start y) trivial
        simp only [stWt, List.length_cons] at this ⊢
        omega

theorem scanRuns_count {α : Type} (cmp : α → α → Bool) (xs : List α) :
    2 * (scanRuns cmp xs).length ≤ xs.length + 1 := by
  cases xs with
  | nil => simp [scanRuns]
  | cons x rest =>
    have := scanGo_count cmp rest (.start x) trivial
    simp only [stWt] at this
    simp only [scanRuns, List.length_cons]
    omega

theorem scanGo_desc_all {α : Type} (cmp : α → α → Bool) :
    ∀ (l : List α) (acc : List α) (cur : α),
      List.Chain' (fun a b => cmp b a = true) (cur :: l) →
      scanGo cmp (.desc acc cur) l = [l.reverse ++ (cur :: acc)] := by
  intro l
  induction l with
  | nil => intro acc cur _; simp [scanGo]
  | cons y rest ih =>
    intro acc cur hchain
    rw [List.chain'_cons] at hchain
    simp only [scanGo, hchain.1, if_true]
    rw [ih (cur :: acc) y hchain.2]
    simp

/-- An input that is one strictly descending run is detected as a single run
and emitted as its reversal. -/
theorem scanRuns_desc {α : Type} (cmp : α → α → Bool) (xs : List α)
    (h2 : 2 ≤ xs.length)
    (hchain : List.Chain' (fun a b => cmp b a = true) xs) :
    scanRuns cmp xs = [xs.reverse] := by
  match xs with
  | [] => simp at h2
  | [x] => simp at h2
  | x :: y :: rest =>
    rw [List.chain'_cons] at hchain
    simp only [scanRuns, scanGo, hchain.1, if_true]
    rw [scanGo_desc_all cmp rest [x] y hchain.2]
    simp

/-- Loop of leading_zeros (parallel_natural_merge_sort.h:157-170): the probe
bit t runs through 2^63, 2^62, ..., 1, and count increments for every leading
clear bit; the count is returned at the first set bit. -/
def lzGo (num : Nat) : Nat → Nat → Nat
  | 0, count => count
  | k + 1, count => if (2 ^ k &&& num) ≠ 0 then count else lzGo num k (count + 1)

/-- Amount of leading zeros in the 64-bit value num. -/
def leading_zeros (num : Nat) : Nat := lzGo num 64 0

/-- Amount of merge passes needed to sort a range with run_amount runs
(parallel_natural_merge_sort.h:176-179).  The size_t decrement
run_amount - 1 is modelled with explicit wraparound mod 2^64. -/
def get_pass_amount (run_amount : Nat) : Nat :=
  64 - leading_zeros ((run_amount + (2 ^ 64 - 1)) % 2 ^ 64)

/-- Binary length of a natural number: 0 for 0, floor(log2 n) + 1 otherwise. -/
def bitlen (n : Nat) : Nat := if n = 0 then 0 else Nat.log2 n + 1

theorem bitlen_le_of_lt {n k : Nat} (h : n < 2 ^ k) : bitlen n ≤ k := by
  rw [bitlen]
  by_cases hn : n = 0
  · simp [hn]
  · rw [if_neg hn]
    have := (Nat.log2_lt hn).mpr h
    omega

theorem lzGo_eq (num : Nat) :
    ∀ (k c : Nat), num < 2 ^ k → lzGo num k c = c + (k - bitlen num) := by
  intro k
  induction k with
  | zero =>
    intro c h
    have : num = 0 := by omega
    subst this
    simp [lzGo, bitlen]
  | succ k ih =>
    intro c h
    rw [lzGo]
    rw [Nat.two_pow_and]
    cases hbit : num.testBit k with
    | true =>
      simp only [hbit, Bool.toNat_true, Nat.mul_one]
      rw [if_pos (Nat.two_pow_pos k).ne']
      have hge : 2 ^ k ≤ num := by
        rw [Nat.testBit_to_div_mod] at hbit
        have h1 : num / 2 ^ k % 2 = 1 := of_decide_eq_true hbit
        have h2 : 1 ≤ num / 2 ^ k := by
          generalize hq : num / 2 ^ k = q at h1
          omega
        exact (Nat.one_le_div_iff (Nat.two_pow_pos k)).mp h2
      have hlen : bitlen num = k + 1 := by
        have hne : num ≠ 0 := by
          intro h0
          rw [h0] at hge
          have := Nat.two_pow_pos k
          omega
        rw [bitlen, if_neg hne, Nat.log2_eq_log_two]
        rw [Nat.log_eq_of_pow_le_of_lt_pow hge h]
      omega
    | false =>
      simp only [hbit, Bool.toNat_false, Nat.mul_zero]
      rw [if_neg (by simp)]
      have hlt : num < 2 ^ k := by
        rw [Nat.testBit_to_div_mod] at hbit
        have h1 : ¬(num / 2 ^ k % 2 = 1) := of_decide_eq_false hbit
        have h2 : num / 2 ^ k < 2 := by
          rw [Nat.div_lt_iff_lt_mul (Nat.two_pow_pos k)]
          rw [pow_succ] at h
          omega
        have h3 : num / 2 ^ k = 0 := by
          generalize hq : num / 2 ^ k = q at h1 h2
          omega
        exact (Nat.div_eq_zero_iff (Nat.two_pow_pos k)).mp h3
      rw [ih (c + 1) hlt]
      have := bitlen_le_of_lt hlt
      omega

theorem leading_zeros_eq {num : Nat} (h : num < 2 ^ 64) :
    leading_zeros num = 64 - bitlen num := by
  rw [leading_zeros, lzGo_eq num 64 0 h]
  omega

theorem bitlen_pred_eq_clog {r : Nat} (h1 : 1 ≤ r) :
    bitlen (r - 1) = Nat.clog 2 r := by
  rcases Nat.lt_or_ge r 2 with h2 | h2
  · have : r = 1 := by omega
    subst this
    simp [bitlen, Nat.clog_one_right]
  · have hne : r - 1 ≠ 0 := by omega
    rw [bitlen, if_neg hne, Nat.log2_eq_log_two]
    apply le_antisymm
    · have hpow : 2 ^ Nat.log 2 (r - 1) ≤ r - 1 := Nat.pow_log_le_self 2 hne
      have hclog : r ≤ 2 ^ Nat.clog 2 r := Nat.le_pow_clog (by norm_num) r
      have : 2 ^ Nat.log 2 (r - 1) < 2 ^ Nat.clog 2 r := by omega
      have := (Nat.pow_lt_pow_iff_right (by norm_num : 1 < 2)).mp this
      omega
    · apply (Nat.le_pow_iff_clog_le (by norm_num : 1 < 2)).mp
      have := Nat.lt_pow_succ_log_self (by norm_num : 1 < 2) (r - 1)
      omega

theorem get_pass_amount_eq_clog {r : Nat} (h1 : 1 ≤ r) (h2 : r < 2 ^ 64) :
    get_pass_amount r = Nat.clog 2 r := by
  have hmod : (r + (2 ^ 64 - 1)) % 2 ^ 64 = r - 1 := by
    have he : r + (2 ^ 64 - 1) = (r - 1) + 2 ^ 64 := by omega
    rw [he, Nat.add_mod_right, Nat.mod_eq_of_lt (by omega)]
  rw [get_pass_amount, hmod, leading_zeros_eq (by omega)]
  have hb : bitlen (r - 1) ≤ 64 := bitlen_le_of_lt (by omega)
  rw [bitlen_pred_eq_clog h1] at hb ⊢
  omega

theorem get_pass_amount_one : get_pass_amount 1 = 0 := by
  rw [get_pass_amount_eq_clog (by norm_num) (by norm_num)]
  exact Nat.clog_one_right 2

theorem get_pass_amount_rec {r : Nat} (h2 : 2 ≤ r) (h64 : r < 2 ^ 64) :
    get_pass_amount r = get_pass_amount ((r + 1) / 2) + 1 := by
  rw [get_pass_amount_eq_clog (by omega) h64,
    get_pass_amount_eq_clog (by omega) (by omega)]
  have := Nat.clog_of_two_le (by norm_num : 1 < 2) h2
  simpa using this

/-- Contiguous span of len elements of a buffer starting at offset off
(iterator arithmetic source + offset of the C++). -/
def spanOf {α : Type} (l : List α) (off len : Nat) : List α := (l.drop off).take len

/-- Overwrite the span [off, off + s.length) of a buffer with s, as the
std::merge / std::copy output ranges do. -/
def writeSpan {α : Type} (t : List α) (off : Nat) (s : List α) : List α :=
  t.take off ++ s ++ t.drop (off + s.length)

/-- Contents of the pair ([first,last), scratch buffer) given the two rotating
buffers and the flag telling whether source currently is the input range. -/
def exitPair {α : Type} (srcIsFirst : Bool) (source target : List α) :
    List α × List α :=
  if srcIsFirst then (source, target) else (target, source)

/-- Merge scheduler loop of natural_merge_sort_impl
(parallel_natural_merge_sort.h:227-271).  The run-length queue is modelled as
a FIFO list (dequeue at the head, enqueue at the tail); the while condition
queue size > 1 is the cons-cons pattern; fuel is one unit per iteration, and
the initial queue size is always enough because every iteration removes one
net entry.  The Boolean flag records which physical buffer is the caller
range [first, last); it flips at every source/target swap, and the function
returns the pair (contents of [first, last), contents of the scratch
buffer). -/
def merge_loop {α : Type} (cmp : α → α → Bool) :
    Nat → List Nat → Nat → Nat → List α → List α → Bool → List α × List α
  | 0, _, _, _, source, target, flag => exitPair flag source target
  | fuel + 1, l :: r :: rest, runs_left, offset, source, target, flag =>
    let merged := mergeLists cmp (spanOf source offset l) (spanOf source (offset + l) r)
    let target1 := writeSpan target offset merged
    let q1 := rest ++ [l + r]
    let runs_left1 := runs_left - 2
    let offset1 := offset + l + r
    if runs_left1 = 1 then
      match q1 with
      | s :: q2 =>
        let target2 := writeSpan target1 offset1 (spanOf source offset1 s)
        let q3 := q2 ++ [s]
        merge_loop cmp fuel q3 q3.length 0 target2 source (!flag)
      | [] => exitPair flag source target1
    else if runs_left1 = 0 then
      merge_loop cmp fuel q1 q1.length 0 target1 source (!flag)
    else
      merge_loop cmp fuel q1 runs_left1 offset1 source target1 flag
  | _ + 1, _, _, _, source, target, flag => exitPair flag source target

/-- Core of the sequential natural merge sort
(parallel_natural_merge_sort.h:184-272) on the pair (range [first, last),
scratch buffer): scan the runs, precompute the pass count, pre-copy the
scanned range into the scratch buffer exactly when the pass count is odd (so
that source starts at the scratch buffer and target at the input range), and
run the merge loop.  Returns (final [first, last), final scratch buffer). -/
def natural_merge_sort_impl {α : Type} (cmp : α → α → Bool)
    (xs buffer : List α) : List α × List α :=
  if xs.length < 2 then (xs, buffer)
  else
    let q := (scanRuns cmp xs).map List.length
    let a := (scanRuns cmp xs).flatten
    let merge_passes := get_pass_amount q.length
    if merge_passes &&& 1 = 1 then
      merge_loop cmp q.length q q.length 0 a a false
    else
      merge_loop cmp q.length q q.length 0 a buffer true

/-- Sequential entry point natural_merge_sort
(parallel_natural_merge_sort.h:289-304).  The C++ allocates an uninitialized
scratch buffer of the same length; its initial contents are never read before
being overwritten, so the model passes a copy of the input as the arbitrary
initial buffer contents. -/
def natural_merge_sort {α : Type} (cmp : α → α → Bool) (xs : List α) : List α :=
  if xs.length < 2 then xs else (natural_merge_sort_impl cmp xs xs).1

/-- Number of source/target swaps the merge loop will still perform from a
state with p pending runs of the current pass and m already-merged runs
behind them in the queue. -/
def remFlips (p m : Nat) : Nat :=
  if p ≤ 1 ∧ m = 0 then 0 else get_pass_amount (m + (p + 1) / 2) + 1

theorem merge_loop_zero {α : Type} (cmp : α → α → Bool) (q : List Nat)
    (rl off : Nat) (s t : List α) (flag : Bool) :
    merge_loop cmp 0 q rl off s t flag = exitPair flag s t := rfl

theorem merge_loop_nil {α : Type} (cmp : α → α → Bool) (fuel : Nat)
    (rl off : Nat) (s t : List α) (flag : Bool) :
    merge_loop cmp (fuel + 1) [] rl off s t flag = exitPair flag s t := rfl

theorem merge_loop_single {α : Type} (cmp : α → α → Bool) (fuel : Nat)
    (x : Nat) (rl off : Nat) (s t : List α) (flag : Bool) :
    merge_loop cmp (fuel + 1) [x] rl off s t flag = exitPair flag s t := rfl

theorem merge_loop_cons_cons {α : Type} (cmp : α → α → Bool) (fuel : Nat)
    (l r : Nat) (rest : List Nat) (runs_left offset : Nat) (source target : List α)
    (flag : Bool) :
    merge_loop cmp (fuel + 1) (l :: r :: rest) runs_left offset source target flag =
      (if runs_left - 2 = 1 then
        match rest ++ [l + r] with
        | s :: q2 =>
          merge_loop cmp fuel (q2 ++ [s]) (q2 ++ [s]).length 0
            (writeSpan
              (writeSpan target offset
                (mergeLists cmp (spanOf source offset l) (spanOf source (offset + l) r)))
              (offset + l + r) (spanOf source (offset + l + r) s))
            source (!flag)
        | [] =>
          exitPair flag source
            (writeSpan target offset
              (mergeLists cmp (spanOf source offset l) (spanOf source (offset + l) r)))
      else if runs_left - 2 = 0 then
        merge_loop cmp fuel (rest ++ [l + r]) (rest ++ [l + r]).length 0
          (writeSpan target offset
            (mergeLists cmp (spanOf source offset l) (spanOf source (offset + l) r)))
          source (!flag)
      else
        merge_loop cmp fuel (rest ++ [l + r]) (runs_left - 2) (offset + l + r) source
          (writeSpan target offset
            (mergeLists cmp (spanOf source offset l) (spanOf source (offset + l) r)))
          flag) := rfl

theorem spanOf_exact {α : Type} (C X R : List α) :
    spanOf (C ++ (X ++ R)) C.length X.length = X := by
  rw [spanOf, List.drop_left, List.take_left]

theorem writeSpan_exact {α : Type} (A B R s : List α) (h : s.length = B.length) :
    writeSpan (A ++ (B ++ R)) A.length s = A ++ (s ++ R) := by
  rw [writeSpan, List.take_left]
  have hd : (A ++ (B ++ R)).drop (A.length + s.length) = R := by
    rw [h, ← List.append_assoc]
    have : A.length + B.length = (A ++ B).length := by simp
    rw [this, List.drop_left]
  rw [hd, List.append_assoc]

theorem parity_flip (n : Nat) :
    (!decide (n % 2 = 0)) = decide ((n + 1) % 2 = 0) := by
  by_cases h : n % 2 = 0
  · have h2 : (n + 1) % 2 = 1 := by omega
    simp [h, h2]
  · have h1 : n % 2 = 1 := by omega
    have h2 : (n + 1) % 2 = 0 := by omega
    simp [h, h2]


theorem writeSpan_at {α : Type} (A T s : List α) (h : s.length ≤ T.length) :
    writeSpan (A ++ T) A.length s = A ++ (s ++ T.drop s.length) := by
  rw [writeSpan, List.take_left, List.drop_append, List.append_assoc]

theorem flatten_snoc {α : Type} (M : List (List α)) (x : List α) :
    (M ++ [x]).flatten = M.flatten ++ x := by
  simp

theorem merge_loop_cons_cons_main {α : Type} (cmp : α → α → Bool) (fuel : Nat)
    (l r : Nat) (rest : List Nat) (runs_left offset : Nat) (source target : List α)
    (flag : Bool) (h1 : runs_left - 2 ≠ 1) (h0 : runs_left - 2 ≠ 0) :
    merge_loop cmp (fuel + 1) (l :: r :: rest) runs_left offset source target flag =
      merge_loop cmp fuel (rest ++ [l + r]) (runs_left - 2) (offset + l + r) source
        (writeSpan target offset
          (mergeLists cmp (spanOf source offset l) (spanOf source (offset + l) r)))
        flag := by
  rw [merge_loop_cons_cons, if_neg h1, if_neg h0]

theorem merge_loop_cons_cons_case0 {α : Type} (cmp : α → α → Bool) (fuel : Nat)
    (l r : Nat) (rest : List Nat) (runs_left offset : Nat) (source target : List α)
    (flag : Bool) (h : runs_left - 2 = 0) :
    merge_loop cmp (fuel + 1) (l :: r :: rest) runs_left offset source target flag =
      merge_loop cmp fuel (rest ++ [l + r]) (rest ++ [l + r]).length 0
        (writeSpan target offset
          (mergeLists cmp (spanOf source offset l) (spanOf source (offset + l) r)))
        source (!flag) := by
  rw [merge_loop_cons_cons, if_neg (by omega), if_pos h]

theorem merge_loop_cons_cons_case1 {α : Type} (cmp : α → α → Bool) (fuel : Nat)
    (l r s0 : Nat) (rest' : List Nat) (runs_left offset : Nat)
    (source target : List α) (flag : Bool) (h : runs_left - 2 = 1) :
    merge_loop cmp (fuel + 1) (l :: r :: s0 :: rest') runs_left offset source target
        flag =
      merge_loop cmp fuel ((rest' ++ [l + r]) ++ [s0])
        ((rest' ++ [l + r]) ++ [s0]).length 0
        (writeSpan
          (writeSpan target offset
            (mergeLists cmp (spanOf source offset l) (spanOf source (offset + l) r)))
          (offset + l + r) (spanOf source (offset + l + r) s0))
        source (!flag) := by
  rw [merge_loop_cons_cons, if_pos h]
  rfl

set_option maxRecDepth 4096

/-- Bridge between the imperative merge loop and the abstract pass structure.
The state is the pass invariant of the scheduler: the queue holds the lengths
of the pending runs P of the current pass followed by the lengths of the runs
M already merged in this pass; source is a consumed prefix C followed by the
pending runs; target is the merged data followed by a not-yet-written suffix
T; runs_left counts the pending runs and offset the written elements; the
flag fixes the parity of the remaining buffer swaps so that the loop exits
with the fully merged data in the caller range. -/
theorem merge_loop_spec {α : Type} (cmp : α → α → Bool) :
    ∀ (fuel : Nat) (Q : List Nat) (RL OFF : Nat) (S TGT : List α) (flag : Bool)
      (P M : List (List α)) (C T : List α),
      Q = P.map List.length ++ M.map List.length →
      RL = P.length →
      OFF = (M.map List.length).sum →
      S = C ++ P.flatten →
      TGT = M.flatten ++ T →
      P ≠ [] →
      C.length = (M.map List.length).sum →
      T.length = P.flatten.length →
      (P.length = 1 → M = []) →
      flag = decide (remFlips P.length M.length % 2 = 0) →
      P.length + M.length ≤ fuel + 1 →
      P.length + M.length < 2 ^ 64 →
      (merge_loop cmp fuel Q RL OFF S TGT flag).1 =
          mergeAll cmp (M ++ mergePairs cmp P) ∧
        (merge_loop cmp fuel Q RL OFF S TGT flag).2.length =
          C.length + P.flatten.length := by
  intro fuel
  induction fuel with
  | zero =>
    intro Q RL OFF S TGT flag P M C T hQ hRL hOFF hS hTGT hPne hC hT hM1 hflag
      hfuel hbound
    subst hQ; subst hRL; subst hOFF; subst hS; subst hTGT
    obtain ⟨p1, rfl⟩ : ∃ p1, P = [p1] := by
      cases P with
      | nil => exact absurd rfl hPne
      | cons p1 P1 =>
        cases P1 with
        | nil => exact ⟨p1, rfl⟩
        | cons p2 P2 =>
          exfalso
          simp at hfuel
          omega
    have hm : M = [] := hM1 (by simp)
    subst hm
    rw [remFlips, if_pos (by simp)] at hflag
    have hflag1 : flag = true := by rw [hflag]; simp
    subst hflag1
    have hCnil : C = [] := List.length_eq_zero.mp (by simpa using hC)
    subst hCnil
    rw [merge_loop_zero]
    simp [exitPair, mergeAll, mergePairs, hT]
  | succ fuel ih =>
    intro Q RL OFF S TGT flag P M C T hQ hRL hOFF hS hTGT hPne hC hT hM1 hflag
      hfuel hbound
    subst hQ; subst hRL; subst hOFF; subst hS; subst hTGT
    cases P with
    | nil => exact absurd rfl hPne
    | cons p1 P1 =>
    cases P1 with
    | nil =>
      have hm : M = [] := hM1 (by simp)
      subst hm
      rw [remFlips, if_pos (by simp)] at hflag
      have hflag1 : flag = true := by rw [hflag]; simp
      subst hflag1
      have hCnil : C = [] := List.length_eq_zero.mp (by simpa using hC)
      subst hCnil
      have hq : ([p1].map List.length ++ ([] : List (List α)).map List.length) =
          [p1.length] := by simp
      rw [hq, merge_loop_single]
      simp [exitPair, mergeAll, mergePairs, hT]
    | cons p2 P2 =>
      have hrl2 : (p1 :: p2 :: P2).length - 2 = P2.length := by simp
      have hspan1 : spanOf (C ++ (p1 :: p2 :: P2).flatten) ((M.map List.length).sum)
          p1.length = p1 := by
        rw [show C ++ (p1 :: p2 :: P2).flatten = C ++ (p1 ++ (p2 ++ P2.flatten))
          from by simp, ← hC]
        exact spanOf_exact C p1 (p2 ++ P2.flatten)
      have hspan2 : spanOf (C ++ (p1 :: p2 :: P2).flatten)
          ((M.map List.length).sum + p1.length) p2.length = p2 := by
        rw [show C ++ (p1 :: p2 :: P2).flatten = (C ++ p1) ++ (p2 ++ P2.flatten)
          from by simp, ← hC,
          show C.length + p1.length = (C ++ p1).length from by simp]
        exact spanOf_exact (C ++ p1) p2 P2.flatten
      have hmlen : (mergeLists cmp p1 p2).length = p1.length + p2.length :=
        mergeLists_length cmp p1 p2
      have hTge : p1.length + p2.length ≤ T.length := by
        rw [hT]; simp
      have htgt1 : writeSpan (M.flatten ++ T) ((M.map List.length).sum)
          (mergeLists cmp p1 p2) =
          (M ++ [mergeLists cmp p1 p2]).flatten ++
            T.drop (p1.length + p2.length) := by
        rw [show (M.map List.length).sum = M.flatten.length from
            (List.length_flatten M).symm,
          writeSpan_at M.flatten T (mergeLists cmp p1 p2) (by omega),
          flatten_snoc, hmlen, List.append_assoc]
      have hbound2 : P2.length + 2 + M.length < 2 ^ 64 := by
        simpa using hbound
      cases P2 with
      | nil =>
        rw [show (p1 :: p2 :: ([] : List (List α))).map List.length ++
          M.map List.length = p1.length :: p2.length :: M.map List.length from by
            simp]
        rw [merge_loop_cons_cons_case0 cmp fuel p1.length p2.length
          (M.map List.length) (p1 :: p2 :: ([] : List (List α))).length
          ((M.map List.length).sum) _ _ flag (by simp)]
        rw [hspan1, hspan2, htgt1]
        have hdrop : T.drop (p1.length + p2.length) = [] :=
          List.drop_eq_nil_of_le (by simp at hT; omega)
        rw [hdrop]
        have hkey : remFlips 2 M.length = remFlips (M.length + 1) 0 + 1 := by
          rcases Nat.eq_zero_or_pos M.length with h0 | h0
          · rw [h0, remFlips, if_neg (by simp), remFlips, if_pos (by simp)]
            have h1 : (0:Nat) + (2 + 1) / 2 = 1 := by omega
            rw [h1, get_pass_amount_one]
          · rw [remFlips, if_neg (by rintro ⟨ha, _⟩; omega),
              remFlips, if_neg (by rintro ⟨ha, _⟩; omega)]
            have h1 : M.length + (2 + 1) / 2 = M.length + 1 := by omega
            rw [h1, get_pass_amount_rec (by omega) (by omega)]
            have h2 : (0:Nat) + (M.length + 1 + 1) / 2 = (M.length + 1 + 1) / 2 := by
              omega
            rw [h2]
        have hflagrec : (!flag) =
            decide (remFlips (M ++ [mergeLists cmp p1 p2]).length
              ([] : List (List α)).length % 2 = 0) := by
          rw [hflag]
          simp only [List.length_append, List.length_singleton, List.length_nil,
            List.length_cons]
          have e1 : (0:Nat) + 1 + 1 = 2 := rfl
          simp only [e1]
          rewrite [hkey]
          rw [← parity_flip, Bool.not_not]
        have hRHS : mergeAll cmp (M ++ mergePairs cmp [p1, p2]) =
            mergeAll cmp (([] : List (List α)) ++
              mergePairs cmp (M ++ [mergeLists cmp p1 p2])) := by
          rw [show mergePairs cmp [p1, p2] = [mergeLists cmp p1 p2] from rfl]
          cases M with
          | nil => simp [mergePairs]
          | cons m0 Ms =>
            rw [List.nil_append]
            exact mergeAll_step cmp ((m0 :: Ms) ++ [mergeLists cmp p1 p2]) (by simp)
        obtain ⟨ha, hb⟩ := ih (M.map List.length ++ [p1.length + p2.length])
          ((M.map List.length ++ [p1.length + p2.length]).length) 0
          ((M ++ [mergeLists cmp p1 p2]).flatten ++ ([] : List α))
          (C ++ (p1 :: p2 :: ([] : List (List α))).flatten)
          (!flag) (M ++ [mergeLists cmp p1 p2]) [] []
          (C ++ (p1 :: p2 :: ([] : List (List α))).flatten)
          (by simp [hmlen]) (by simp) (by simp) (by simp) (by simp)
          (by simp) (by simp)
          (by
            simp only [List.length_append, List.flatten_append, List.length_nil,
              List.flatten_cons, List.flatten_nil, List.append_nil,
              List.length_flatten, List.map_append, List.map_cons, List.map_nil,
              List.sum_append, List.sum_cons, List.sum_nil, hmlen]
            omega)
          (fun _ => rfl) hflagrec
          (by
            simp only [List.length_append, List.length_singleton, List.length_nil,
              List.length_cons] at hfuel ⊢
            omega)
          (by
            simp only [List.length_append, List.length_singleton, List.length_nil,
              List.length_cons] at hbound ⊢
            omega)
        constructor
        · rw [hRHS]
          exact ha
        · rw [hb]
          simp only [List.length_nil, List.flatten_append, List.flatten_cons,
            List.flatten_nil, List.append_nil, List.length_append,
            List.length_flatten, hmlen, hC]
          omega
      | cons p3 P3 =>
      cases P3 with
      | nil =>
        rw [show (p1 :: p2 :: [p3]).map List.length ++ M.map List.length =
          p1.length :: p2.length :: p3.length :: M.map List.length from by simp]
        rw [merge_loop_cons_cons_case1 cmp fuel p1.length p2.length p3.length
          (M.map List.length) (p1 :: p2 :: [p3]).length ((M.map List.length).sum)
          _ _ flag (by simp)]
        rw [hspan1, hspan2, htgt1]
        have hspan3 : spanOf (C ++ (p1 :: p2 :: [p3]).flatten)
            ((M.map List.length).sum + p1.length + p2.length) p3.length = p3 := by
          rw [show C ++ (p1 :: p2 :: [p3]).flatten =
            ((C ++ p1) ++ p2) ++ (p3 ++ []) from by simp, ← hC,
            show C.length + p1.length + p2.length = ((C ++ p1) ++ p2).length from by
              simp
              omega]
          exact spanOf_exact ((C ++ p1) ++ p2) p3 []
        rw [hspan3]
        have hT3 : p3.length ≤ (T.drop (p1.length + p2.length)).length := by
          simp only [List.length_drop]
          simp at hT
          omega
        have htgt2 : writeSpan
            ((M ++ [mergeLists cmp p1 p2]).flatten ++ T.drop (p1.length + p2.length))
            ((M.map List.length).sum + p1.length + p2.length) p3 =
            (M ++ [mergeLists cmp p1 p2] ++ [p3]).flatten := by
          rw [show (M.map List.length).sum + p1.length + p2.length =
            (M ++ [mergeLists cmp p1 p2]).flatten.length from by
              simp [hmlen]
              omega]
          rw [writeSpan_at _ _ _ hT3]
          rw [List.drop_eq_nil_of_le (by
            simp only [List.length_drop]
            simp at hT
            omega)]
          simp
        rw [htgt2]
        have hkey : remFlips 3 M.length = remFlips (M.length + 2) 0 + 1 := by
          rw [remFlips, if_neg (by rintro ⟨ha, _⟩; omega),
            remFlips, if_neg (by rintro ⟨ha, _⟩; omega)]
          have h1 : M.length + (3 + 1) / 2 = M.length + 2 := by omega
          rw [h1, get_pass_amount_rec (by omega) (by omega)]
          have h2 : (0:Nat) + (M.length + 2 + 1) / 2 = (M.length + 2 + 1) / 2 := by
            omega
          rw [h2]
        have hflagrec : (!flag) =
            decide (remFlips (M ++ [mergeLists cmp p1 p2] ++ [p3]).length
              ([] : List (List α)).length % 2 = 0) := by
          rw [hflag]
          simp only [List.length_append, List.length_singleton, List.length_nil,
            List.length_cons]
          have e1 : (0:Nat) + 1 + 1 + 1 = 3 := rfl
          have e2 : M.length + 1 + 1 = M.length + 2 := by omega
          simp only [e1, e2]
          rewrite [hkey]
          rw [← parity_flip, Bool.not_not]
        have hRHS : mergeAll cmp (M ++ mergePairs cmp [p1, p2, p3]) =
            mergeAll cmp (([] : List (List α)) ++
              mergePairs cmp (M ++ [mergeLists cmp p1 p2] ++ [p3])) := by
          rw [show mergePairs cmp [p1, p2, p3] = [mergeLists cmp p1 p2, p3] from rfl]
          rw [List.nil_append]
          rw [show M ++ [mergeLists cmp p1 p2, p3] =
            M ++ [mergeLists cmp p1 p2] ++ [p3] from by simp]
          exact mergeAll_step cmp (M ++ [mergeLists cmp p1 p2] ++ [p3]) (by simp)
        obtain ⟨ha, hb⟩ := ih
          ((M.map List.length ++ [p1.length + p2.length]) ++ [p3.length])
          (((M.map List.length ++ [p1.length + p2.length]) ++ [p3.length]).length) 0
          ((M ++ [mergeLists cmp p1 p2] ++ [p3]).flatten)
          (C ++ (p1 :: p2 :: [p3]).flatten)
          (!flag)
          (M ++ [mergeLists cmp p1 p2] ++ [p3]) [] []
          (C ++ (p1 :: p2 :: [p3]).flatten)
          (by simp [hmlen]) (by simp) (by simp) (by simp) (by simp)
          (by simp) (by simp)
          (by
            simp only [List.length_append, List.flatten_append, List.flatten_cons,
              List.flatten_nil, List.append_nil, List.length_flatten,
              List.map_append, List.map_cons, List.map_nil, List.sum_append,
              List.sum_cons, List.sum_nil, List.length_nil, hmlen]
            omega)
          (by
            intro hlen
            simp at hlen)
          hflagrec
          (by
            simp only [List.length_append, List.length_singleton, List.length_nil,
              List.length_cons] at hfuel ⊢
            omega)
          (by
            simp only [List.length_append, List.length_singleton, List.length_nil,
              List.length_cons] at hbound ⊢
            omega)
        constructor
        · rw [hRHS]
          exact ha
        · rw [hb]
          simp only [List.length_nil, List.flatten_append, List.flatten_cons,
            List.flatten_nil, List.append_nil, List.length_append,
            List.length_flatten, hmlen, hC]
          omega
      | cons p4 P4 =>
        rw [show (p1 :: p2 :: p3 :: p4 :: P4).map List.length ++
          M.map List.length = p1.length :: p2.length ::
            (p3.length :: p4.length :: (P4.map List.length ++ M.map List.length))
          from by simp]
        rw [merge_loop_cons_cons_main cmp fuel p1.length p2.length
          (p3.length :: p4.length :: (P4.map List.length ++ M.map List.length))
          (p1 :: p2 :: p3 :: p4 :: P4).length ((M.map List.length).sum)
          _ _ flag (by simp) (by simp)]
        rw [hspan1, hspan2, htgt1, hrl2]
        have hflagrec : flag =
            decide (remFlips (p3 :: p4 :: P4).length
              (M ++ [mergeLists cmp p1 p2]).length % 2 = 0) := by
          have heq : remFlips (P4.length + 1 + 1 + 1 + 1) M.length =
              remFlips (P4.length + 1 + 1) (M.length + 1) := by
            rw [remFlips, if_neg (by rintro ⟨ha, _⟩; omega),
              remFlips, if_neg (by rintro ⟨ha, _⟩; omega)]
            have h1 : M.length + (P4.length + 1 + 1 + 1 + 1 + 1) / 2 =
                M.length + 1 + (P4.length + 1 + 1 + 1) / 2 := by omega
            rw [h1]
          rw [hflag]
          simp only [List.length_append, List.length_singleton, List.length_cons]
          exact congrArg (fun z => decide (z % 2 = 0)) heq
        have hRHS : mergeAll cmp (M ++ mergePairs cmp (p1 :: p2 :: p3 :: p4 :: P4)) =
            mergeAll cmp ((M ++ [mergeLists cmp p1 p2]) ++
              mergePairs cmp (p3 :: p4 :: P4)) := by
          rw [show mergePairs cmp (p1 :: p2 :: p3 :: p4 :: P4) =
            mergeLists cmp p1 p2 :: mergePairs cmp (p3 :: p4 :: P4) from rfl]
          simp
        obtain ⟨ha, hb⟩ := ih
          ((p3.length :: p4.length :: (P4.map List.length ++ M.map List.length)) ++
            [p1.length + p2.length])
          ((p3 :: p4 :: P4).length)
          ((M.map List.length).sum + p1.length + p2.length)
          (C ++ (p1 :: p2 :: p3 :: p4 :: P4).flatten)
          ((M ++ [mergeLists cmp p1 p2]).flatten ++ List.drop (p1.length + p2.length) T)
          flag (p3 :: p4 :: P4)
          (M ++ [mergeLists cmp p1 p2]) (C ++ p1 ++ p2)
          (T.drop (p1.length + p2.length))
          (by simp [hmlen]) (by simp)
          (by
            simp only [List.map_append, List.map_cons, List.map_nil,
              List.sum_append, List.sum_cons, List.sum_nil, hmlen]
            omega)
          (by simp) rfl (by simp)
          (by
            simp only [List.length_append, List.map_append, List.map_cons,
              List.map_nil, List.sum_append, List.sum_cons, List.sum_nil, hmlen,
              hC]
            omega)
          (by
            simp only [List.length_drop]
            simp at hT ⊢
            omega)
          (by
            intro hlen
            simp at hlen)
          hflagrec
          (by
            simp only [List.length_append, List.length_singleton, List.length_nil,
              List.length_cons] at hfuel ⊢
            omega)
          (by
            simp only [List.length_append, List.length_singleton, List.length_nil,
              List.length_cons] at hbound ⊢
            omega)
        constructor
        · rw [hRHS]
          exact ha
        · rw [hb]
          simp only [List.length_append, List.flatten_cons]
          omega

theorem mergeAll_mergePairs {α : Type} (cmp : α → α → Bool) (rs : List (List α)) :
    mergeAll cmp (mergePairs cmp rs) = mergeAll cmp rs := by
  match rs with
  | [] => rfl
  | [r] => rfl
  | a :: b :: rest => exact (mergeAll_step cmp (a :: b :: rest) (by simp)).symm

theorem remFlips_boundary (r : Nat) (h1 : 1 ≤ r) (h64 : r < 2 ^ 64) :
    remFlips r 0 = get_pass_amount r := by
  rcases Nat.lt_or_ge r 2 with h2 | h2
  · have : r = 1 := by omega
    subst this
    rw [remFlips, if_pos (by simp), get_pass_amount_one]
  · rw [remFlips, if_neg (by rintro ⟨ha, _⟩; omega),
      get_pass_amount_rec h2 h64]
    simp only [Nat.zero_add]

theorem sorted_short {α : Type} (cmp : α → α → Bool) (l : List α)
    (h : l.length < 2) : SortedLe cmp l := by
  match l with
  | [] => simp [SortedLe]
  | [a] => simp [SortedLe]
  | a :: b :: t => simp only [List.length_cons] at h; omega

theorem natural_merge_sort_impl_of_ge {α : Type} (cmp : α → α → Bool)
    (xs buffer : List α) (h : ¬ xs.length < 2) :
    natural_merge_sort_impl cmp xs buffer =
      if get_pass_amount ((scanRuns cmp xs).map List.length).length &&& 1 = 1 then
        merge_loop cmp ((scanRuns cmp xs).map List.length).length
          ((scanRuns cmp xs).map List.length)
          ((scanRuns cmp xs).map List.length).length 0
          ((scanRuns cmp xs).flatten) ((scanRuns cmp xs).flatten) false
      else
        merge_loop cmp ((scanRuns cmp xs).map List.length).length
          ((scanRuns cmp xs).map List.length)
          ((scanRuns cmp xs).map List.length).length 0
          ((scanRuns cmp xs).flatten) buffer true := by
  rw [natural_merge_sort_impl, if_neg h]

/-- The scheduler leaves the fully merged data in the caller range and keeps
the scratch buffer at its length: the parity pre-copy scheme works. -/
theorem natural_merge_sort_impl_spec {α : Type} (cmp : α → α → Bool)
    (xs buf : List α) (h2 : 2 ≤ xs.length) (h64 : xs.length < 2 ^ 64)
    (hbuf : buf.length = xs.length) :
    (natural_merge_sort_impl cmp xs buf).1 = mergeAll cmp (scanRuns cmp xs) ∧
    (natural_merge_sort_impl cmp xs buf).2.length = xs.length := by
  rw [natural_merge_sort_impl_of_ge cmp xs buf (by omega)]
  have hne : scanRuns cmp xs ≠ [] := by
    apply scanRuns_ne_nil cmp
    intro h
    subst h
    simp at h2
  have hr1 : 1 ≤ (scanRuns cmp xs).length := List.length_pos.mpr hne
  have hcount := scanRuns_count cmp xs
  have hr64 : (scanRuns cmp xs).length < 2 ^ 64 := by omega
  have hflat : (scanRuns cmp xs).flatten.length = xs.length :=
    scanRuns_flatten_length cmp xs
  have hrf := remFlips_boundary (scanRuns cmp xs).length hr1 hr64
  by_cases hpar : get_pass_amount ((scanRuns cmp xs).map List.length).length &&& 1 = 1
  · rw [if_pos hpar]
    have hmod : get_pass_amount (scanRuns cmp xs).length % 2 = 1 := by
      rw [← Nat.and_one_is_mod]
      simpa using hpar
    obtain ⟨ha, hb⟩ := merge_loop_spec cmp ((scanRuns cmp xs).map List.length).length
      ((scanRuns cmp xs).map List.length) ((scanRuns cmp xs).map List.length).length
      0 ((scanRuns cmp xs).flatten) ((scanRuns cmp xs).flatten) false
      (scanRuns cmp xs) [] [] ((scanRuns cmp xs).flatten)
      (by simp) (by simp) (by simp) (by simp) (by simp) hne (by simp) rfl
      (fun _ => rfl) (by simp [hrf, hmod]) (by simp) (by simpa using hr64)
    constructor
    · rw [ha, List.nil_append, mergeAll_mergePairs]
    · rw [hb]
      simpa using hflat
  · rw [if_neg hpar]
    have hmod : get_pass_amount (scanRuns cmp xs).length % 2 = 0 := by
      simp only [List.length_map] at hpar
      have h := Nat.and_one_is_mod (get_pass_amount (scanRuns cmp xs).length)
      omega
    obtain ⟨ha, hb⟩ := merge_loop_spec cmp ((scanRuns cmp xs).map List.length).length
      ((scanRuns cmp xs).map List.length) ((scanRuns cmp xs).map List.length).length
      0 ((scanRuns cmp xs).flatten) buf true
      (scanRuns cmp xs) [] [] buf
      (by simp) (by simp) (by simp) (by simp) (by simp) hne (by simp)
      (by rw [hbuf, ← hflat]) (fun _ => rfl) (by simp [hrf, hmod]) (by simp)
      (by simpa using hr64)
    constructor
    · rw [ha, List.nil_append, mergeAll_mergePairs]
    · rw [hb]
      simpa using hflat
  
theorem natural_merge_sort_impl_first_perm {α : Type} (cmp : α → α → Bool)
    (xs buf : List α) (h64 : xs.length < 2 ^ 64) (hbuf : buf.length = xs.length) :
    ((natural_merge_sort_impl cmp xs buf).1).Perm xs := by
  by_cases h2 : xs.length < 2
  · rw [natural_merge_sort_impl, if_pos h2]
  · rw [(natural_merge_sort_impl_spec cmp xs buf (by omega) h64 hbuf).1]
    exact (mergeAll_perm cmp _ _ rfl).trans (scanRuns_flatten_perm cmp xs)

theorem natural_merge_sort_impl_first_sorted {α : Type} {cmp : α → α → Bool}
    (hswo : SWO cmp) (xs buf : List α) (h64 : xs.length < 2 ^ 64)
    (hbuf : buf.length = xs.length) :
    SortedLe cmp (natural_merge_sort_impl cmp xs buf).1 := by
  by_cases h2 : xs.length < 2
  · rw [natural_merge_sort_impl, if_pos h2]
    exact sorted_short cmp xs h2
  · rw [(natural_merge_sort_impl_spec cmp xs buf (by omega) h64 hbuf).1]
    exact mergeAll_sorted hswo _ _ rfl (scanRuns_sorted hswo xs)

theorem natural_merge_sort_impl_first_filter {α : Type} {cmp : α → α → Bool}
    (hswo : SWO cmp) (e : α) (xs buf : List α) (h64 : xs.length < 2 ^ 64)
    (hbuf : buf.length = xs.length) :
    ((natural_merge_sort_impl cmp xs buf).1).filter (eqv cmp e) =
      xs.filter (eqv cmp e) := by
  by_cases h2 : xs.length < 2
  · rw [natural_merge_sort_impl, if_pos h2]
  · rw [(natural_merge_sort_impl_spec cmp xs buf (by omega) h64 hbuf).1]
    rw [mergeAll_filter hswo e _ _ rfl (scanRuns_sorted hswo xs)]
    exact scanRuns_filter hswo e xs

theorem natural_merge_sort_impl_second_length {α : Type} (cmp : α → α → Bool)
    (xs buf : List α) (h64 : xs.length < 2 ^ 64) (hbuf : buf.length = xs.length) :
    ((natural_merge_sort_impl cmp xs buf).2).length = xs.length := by
  by_cases h2 : xs.length < 2
  · rw [natural_merge_sort_impl, if_pos h2]
    exact hbuf
  · exact (natural_merge_sort_impl_spec cmp xs buf (by omega) h64 hbuf).2

theorem natural_merge_sort_impl_first_length {α : Type} (cmp : α → α → Bool)
    (xs buf : List α) (h64 : xs.length < 2 ^ 64) (hbuf : buf.length = xs.length) :
    ((natural_merge_sort_impl cmp xs buf).1).length = xs.length :=
  (natural_merge_sort_impl_first_perm cmp xs buf h64 hbuf).length_eq

theorem natural_merge_sort_perm {α : Type} (cmp : α → α → Bool) (xs : List α)
    (h64 : xs.length < 2 ^ 64) : (natural_merge_sort cmp xs).Perm xs := by
  rw [natural_merge_sort]
  by_cases h2 : xs.length < 2
  · rw [if_pos h2]
  · rw [if_neg h2]
    exact natural_merge_sort_impl_first_perm cmp xs xs h64 rfl

theorem natural_merge_sort_sorted {α : Type} {cmp : α → α → Bool}
    (hswo : SWO cmp) (xs : List α) (h64 : xs.length < 2 ^ 64) :
    SortedLe cmp (natural_merge_sort cmp xs) := by
  rw [natural_merge_sort]
  by_cases h2 : xs.length < 2
  · rw [if_pos h2]
    exact sorted_short cmp xs h2
  · rw [if_neg h2]
    exact natural_merge_sort_impl_first_sorted hswo xs xs h64 rfl

theorem natural_merge_sort_filter {α : Type} {cmp : α → α → Bool}
    (hswo : SWO cmp) (e : α) (xs : List α) (h64 : xs.length < 2 ^ 64) :
    (natural_merge_sort cmp xs).filter (eqv cmp e) = xs.filter (eqv cmp e) := by
  rw [natural_merge_sort]
  by_cases h2 : xs.length < 2
  · rw [if_pos h2]
  · rw [if_neg h2]
    exact natural_merge_sort_impl_first_filter hswo e xs xs h64 rfl

theorem writeSpan_zero {α : Type} (t s : List α) (h : t.length ≤ s.length) :
    writeSpan t 0 s = s := by
  rw [writeSpan, List.take_zero, Nat.zero_add, List.drop_eq_nil_of_le h]
  simp

/-- Parallel merge sort recursion (parallel_natural_merge_sort.h:309-372) on
a source/target pair of equal-length buffers.  thread_quota = 1 delegates to
the sequential scheduler on the target range with source as its scratch (the
C++ recursion never receives quota 0 -- the entry point passes spawn >= 2 and
recursive quotas stay >= 1 -- so the model folds that impossible case into
the same base to stay total);
thread_quota = 2 sorts the two source halves sequentially (using the target
halves as scratch) and merges them into target; a larger quota recurses on
the two halves with the buffer roles swapped and then merges the two sorted
source halves into target.  Returns (final source contents, final target
contents); thread spawning and joining have no effect on the data because
the two recursive calls touch disjoint halves, so they are modelled as
sequential evaluation. -/
def parallel_natural_merge_sort_impl {α : Type} (cmp : α → α → Bool)
    (source target : List α) (thread_quota : Nat) : List α × List α :=
  if thread_quota ≤ 1 then
    ((natural_merge_sort_impl cmp target source).2,
     (natural_merge_sort_impl cmp target source).1)
  else
    let left_length := source.length / 2
    if thread_quota = 2 then
      let rL := natural_merge_sort_impl cmp (source.take left_length)
        (target.take left_length)
      let rR := natural_merge_sort_impl cmp (source.drop left_length)
        (target.drop left_length)
      (rL.1 ++ rR.1, writeSpan (rL.2 ++ rR.2) 0 (mergeLists cmp rL.1 rR.1))
    else
      let left_quota := thread_quota / 2
      let right_quota := thread_quota - left_quota
      let rL := parallel_natural_merge_sort_impl cmp (target.take left_length)
        (source.take left_length) left_quota
      let rR := parallel_natural_merge_sort_impl cmp (target.drop left_length)
        (source.drop left_length) right_quota
      (rL.2 ++ rR.2, writeSpan (rL.1 ++ rR.1) 0 (mergeLists cmp rL.2 rR.2))
termination_by thread_quota
decreasing_by
  · omega
  · omega

/-- Parallel entry point parallel_natural_merge_sort
(parallel_natural_merge_sort.h:379-398).  The ambient
std::thread::hardware_concurrency() is a parameter cores of the model; the
top-level scratch buffer receives a copy of the input, so both buffers hold
xs when the fork-join recursion starts. -/
def parallel_natural_merge_sort {α : Type} (cores : Nat) (cmp : α → α → Bool)
    (xs : List α) : List α :=
  let spawn := min cores (xs.length / 2 ^ 14)
  if spawn < 2 then natural_merge_sort cmp xs
  else (parallel_natural_merge_sort_impl cmp xs xs spawn).2

theorem parallel_impl_one {α : Type} (cmp : α → α → Bool) (s t : List α) :
    parallel_natural_merge_sort_impl cmp s t 1 =
      ((natural_merge_sort_impl cmp t s).2, (natural_merge_sort_impl cmp t s).1) := by
  rw [parallel_natural_merge_sort_impl, if_pos (by omega)]

theorem parallel_impl_two {α : Type} (cmp : α → α → Bool) (s t : List α) :
    parallel_natural_merge_sort_impl cmp s t 2 =
      ((natural_merge_sort_impl cmp (s.take (s.length / 2))
          (t.take (s.length / 2))).1 ++
        (natural_merge_sort_impl cmp (s.drop (s.length / 2))
          (t.drop (s.length / 2))).1,
       writeSpan
        ((natural_merge_sort_impl cmp (s.take (s.length / 2))
            (t.take (s.length / 2))).2 ++
          (natural_merge_sort_impl cmp (s.drop (s.length / 2))
            (t.drop (s.length / 2))).2) 0
        (mergeLists cmp
          (natural_merge_sort_impl cmp (s.take (s.length / 2))
            (t.take (s.length / 2))).1
          (natural_merge_sort_impl cmp (s.drop (s.length / 2))
            (t.drop (s.length / 2))).1)) := by
  rw [parallel_natural_merge_sort_impl, if_neg (by omega), if_pos rfl]

theorem parallel_impl_gt {α : Type} (cmp : α → α → Bool) (s t : List α)
    (q : Nat) (h1 : 2 < q) :
    parallel_natural_merge_sort_impl cmp s t q =
      ((parallel_natural_merge_sort_impl cmp (t.take (s.length / 2))
          (s.take (s.length / 2)) (q / 2)).2 ++
        (parallel_natural_merge_sort_impl cmp (t.drop (s.length / 2))
          (s.drop (s.length / 2)) (q - q / 2)).2,
       writeSpan
        ((parallel_natural_merge_sort_impl cmp (t.take (s.length / 2))
            (s.take (s.length / 2)) (q / 2)).1 ++
          (parallel_natural_merge_sort_impl cmp (t.drop (s.length / 2))
            (s.drop (s.length / 2)) (q - q / 2)).1) 0
        (mergeLists cmp
          (parallel_natural_merge_sort_impl cmp (t.take (s.length / 2))
            (s.take (s.length / 2)) (q / 2)).2
          (parallel_natural_merge_sort_impl cmp (t.drop (s.length / 2))
            (s.drop (s.length / 2)) (q - q / 2)).2)) := by
  rw [parallel_natural_merge_sort_impl, if_neg (by omega), if_neg (by omega)]

/-- Combined specification of the fork-join recursion when both buffers hold
the same contents (as arranged by the top-level copy): both buffers keep
their length, the target ends up a permutation of the data, and under a
strict weak order it is sorted and stable. -/
theorem parallel_impl_spec {α : Type} (cmp : α → α → Bool) :
    ∀ (quota : Nat) (s : List α), 1 ≤ quota → s.length < 2 ^ 64 →
      ((parallel_natural_merge_sort_impl cmp s s quota).1.length = s.length ∧
       (parallel_natural_merge_sort_impl cmp s s quota).2.length = s.length) ∧
      ((parallel_natural_merge_sort_impl cmp s s quota).2).Perm s ∧
      (SWO cmp → SortedLe cmp (parallel_natural_merge_sort_impl cmp s s quota).2) ∧
      (SWO cmp → ∀ e,
        ((parallel_natural_merge_sort_impl cmp s s quota).2).filter (eqv cmp e) =
          s.filter (eqv cmp e)) := by
  intro quota
  induction quota using Nat.strong_induction_on with
  | _ q ih =>
    intro s hq h64
    by_cases h1 : q = 1
    · subst h1
      rw [parallel_impl_one]
      refine ⟨⟨natural_merge_sort_impl_second_length cmp s s h64 rfl,
        natural_merge_sort_impl_first_length cmp s s h64 rfl⟩,
        natural_merge_sort_impl_first_perm cmp s s h64 rfl,
        fun hswo => natural_merge_sort_impl_first_sorted hswo s s h64 rfl,
        fun hswo e => natural_merge_sort_impl_first_filter hswo e s s h64 rfl⟩
    · by_cases h2 : q = 2
      · subst h2
        rw [parallel_impl_two]
        have hlt : (s.take (s.length / 2)).length < 2 ^ 64 := by
          simp only [List.length_take]
          omega
        have hld : (s.drop (s.length / 2)).length < 2 ^ 64 := by
          simp only [List.length_drop]
          omega
        have hAperm := natural_merge_sort_impl_first_perm cmp
          (s.take (s.length / 2)) (s.take (s.length / 2)) hlt rfl
        have hBperm := natural_merge_sort_impl_first_perm cmp
          (s.drop (s.length / 2)) (s.drop (s.length / 2)) hld rfl
        have hAlen := hAperm.length_eq
        have hBlen := hBperm.length_eq
        have hA2len := natural_merge_sort_impl_second_length cmp
          (s.take (s.length / 2)) (s.take (s.length / 2)) hlt rfl
        have hB2len := natural_merge_sort_impl_second_length cmp
          (s.drop (s.length / 2)) (s.drop (s.length / 2)) hld rfl
        have hmerged : (mergeLists cmp
            (natural_merge_sort_impl cmp (s.take (s.length / 2))
              (s.take (s.length / 2))).1
            (natural_merge_sort_impl cmp (s.drop (s.length / 2))
              (s.drop (s.length / 2))).1).length = s.length := by
          rw [mergeLists_length, hAlen, hBlen]
          simp only [List.length_take, List.length_drop]
          omega
        have hws : writeSpan
            ((natural_merge_sort_impl cmp (s.take (s.length / 2))
                (s.take (s.length / 2))).2 ++
              (natural_merge_sort_impl cmp (s.drop (s.length / 2))
                (s.drop (s.length / 2))).2) 0
            (mergeLists cmp
              (natural_merge_sort_impl cmp (s.take (s.length / 2))
                (s.take (s.length / 2))).1
              (natural_merge_sort_impl cmp (s.drop (s.length / 2))
                (s.drop (s.length / 2))).1) =
            mergeLists cmp
              (natural_merge_sort_impl cmp (s.take (s.length / 2))
                (s.take (s.length / 2))).1
              (natural_merge_sort_impl cmp (s.drop (s.length / 2))
                (s.drop (s.length / 2))).1 := by
          apply writeSpan_zero
          rw [hmerged, List.length_append, hA2len, hB2len]
          simp only [List.length_take, List.length_drop]
          omega
        rw [hws]
        have hpermfin : (mergeLists cmp
            (natural_merge_sort_impl cmp (s.take (s.length / 2))
              (s.take (s.length / 2))).1
            (natural_merge_sort_impl cmp (s.drop (s.length / 2))
              (s.drop (s.length / 2))).1).Perm s := by
          refine (mergeLists_perm cmp _ _).trans ?_
          refine (hAperm.append hBperm).trans ?_
          rw [List.take_append_drop]
        refine ⟨⟨by
            rw [List.length_append, hAlen, hBlen]
            simp only [List.length_take, List.length_drop]
            omega, hmerged.trans rfl⟩,
          hpermfin, fun hswo => ?_, fun hswo e => ?_⟩
        · exact mergeLists_sorted hswo
            (natural_merge_sort_impl_first_sorted hswo _ _ hlt rfl)
            (natural_merge_sort_impl_first_sorted hswo _ _ hld rfl)
        · rw [mergeLists_filter hswo e
            (natural_merge_sort_impl_first_sorted hswo _ _ hlt rfl)]
          rw [natural_merge_sort_impl_first_filter hswo e _ _ hlt rfl,
            natural_merge_sort_impl_first_filter hswo e _ _ hld rfl,
            ← List.filter_append, List.take_append_drop]
      · rw [parallel_impl_gt cmp s s q (by omega)]
        have hq3 : 3 ≤ q := by omega
        have hlq1 : 1 ≤ q / 2 := by omega
        have hlqlt : q / 2 < q := by omega
        have hrq1 : 1 ≤ q - q / 2 := by omega
        have hrqlt : q - q / 2 < q := by omega
        have hlt : (s.take (s.length / 2)).length < 2 ^ 64 := by
          simp only [List.length_take]
          omega
        have hld : (s.drop (s.length / 2)).length < 2 ^ 64 := by
          simp only [List.length_drop]
          omega
        obtain ⟨⟨hL1len, hL2len⟩, hLperm, hLsorted, hLfilter⟩ :=
          ih (q / 2) hlqlt (s.take (s.length / 2)) hlq1 hlt
        obtain ⟨⟨hR1len, hR2len⟩, hRperm, hRsorted, hRfilter⟩ :=
          ih (q - q / 2) hrqlt (s.drop (s.length / 2)) hrq1 hld
        have hmerged : (mergeLists cmp
            (parallel_natural_merge_sort_impl cmp (s.take (s.length / 2))
              (s.take (s.length / 2)) (q / 2)).2
            (parallel_natural_merge_sort_impl cmp (s.drop (s.length / 2))
              (s.drop (s.length / 2)) (q - q / 2)).2).length = s.length := by
          rw [mergeLists_length, hL2len, hR2len]
          simp only [List.length_take, List.length_drop]
          omega
        have hws : writeSpan
            ((parallel_natural_merge_sort_impl cmp (s.take (s.length / 2))
                (s.take (s.length / 2)) (q / 2)).1 ++
              (parallel_natural_merge_sort_impl cmp (s.drop (s.length / 2))
                (s.drop (s.length / 2)) (q - q / 2)).1) 0
            (mergeLists cmp
              (parallel_natural_merge_sort_impl cmp (s.take (s.length / 2))
                (s.take (s.length / 2)) (q / 2)).2
              (parallel_natural_merge_sort_impl cmp (s.drop (s.length / 2))
                (s.drop (s.length / 2)) (q - q / 2)).2) =
            mergeLists cmp
              (parallel_natural_merge_sort_impl cmp (s.take (s.length / 2))
                (s.take (s.length / 2)) (q / 2)).2
              (parallel_natural_merge_sort_impl cmp (s.drop (s.length / 2))
                (s.drop (s.length / 2)) (q - q / 2)).2 := by
          apply writeSpan_zero
          rw [hmerged, List.length_append, hL1len, hR1len]
          simp only [List.length_take, List.length_drop]
          omega
        rw [hws]
        have hpermfin : (mergeLists cmp
            (parallel_natural_merge_sort_impl cmp (s.take (s.length / 2))
              (s.take (s.length / 2)) (q / 2)).2
            (parallel_natural_merge_sort_impl cmp (s.drop (s.length / 2))
              (s.drop (s.length / 2)) (q - q / 2)).2).Perm s := by
          refine (mergeLists_perm cmp _ _).trans ?_
          refine (hLperm.append hRperm).trans ?_
          rw [List.take_append_drop]
        refine ⟨⟨by
            rw [List.length_append, hL2len, hR2len]
            simp only [List.length_take, List.length_drop]
            omega,
          hmerged.trans rfl⟩, hpermfin, fun hswo => ?_, fun hswo e => ?_⟩
        · exact mergeLists_sorted hswo (hLsorted hswo) (hRsorted hswo)
        · rw [mergeLists_filter hswo e (hLsorted hswo),
            hLfilter hswo e, hRfilter hswo e,
            ← List.filter_append, List.take_append_drop]

theorem parallel_natural_merge_sort_perm {α : Type} (cores : Nat)
    (cmp : α → α → Bool) (xs : List α) (h64 : xs.length < 2 ^ 64) :
    (parallel_natural_merge_sort cores cmp xs).Perm xs := by
  rw [parallel_natural_merge_sort]
  by_cases hs : min cores (xs.length / 2 ^ 14) < 2
  · rw [if_pos hs]
    exact natural_merge_sort_perm cmp xs h64
  · rw [if_neg hs]
    exact (parallel_impl_spec cmp _ xs (by omega) h64).2.1

theorem parallel_natural_merge_sort_sorted {α : Type} {cmp : α → α → Bool}
    (hswo : SWO cmp) (cores : Nat) (xs : List α) (h64 : xs.length < 2 ^ 64) :
    SortedLe cmp (parallel_natural_merge_sort cores cmp xs) := by
  rw [parallel_natural_merge_sort]
  by_cases hs : min cores (xs.length / 2 ^ 14) < 2
  · rw [if_pos hs]
    exact natural_merge_sort_sorted hswo xs h64
  · rw [if_neg hs]
    exact (parallel_impl_spec cmp _ xs (by omega) h64).2.2.1 hswo

theorem parallel_natural_merge_sort_filter {α : Type} {cmp : α → α → Bool}
    (hswo : SWO cmp) (e : α) (cores : Nat) (xs : List α)
    (h64 : xs.length < 2 ^ 64) :
    (parallel_natural_merge_sort cores cmp xs).filter (eqv cmp e) =
      xs.filter (eqv cmp e) := by
  rw [parallel_natural_merge_sort]
  by_cases hs : min cores (xs.length / 2 ^ 14) < 2
  · rw [if_pos hs]
    exact natural_merge_sort_filter hswo e xs h64
  · rw [if_neg hs]
    exact (parallel_impl_spec cmp _ xs (by omega) h64).2.2.2 hswo e

/-- Two sorted, stable permutations of the same data are equal: sortedness,
the permutation property and filter-stability determine the output of a
stable sort uniquely under a strict weak order. -/
theorem stable_sorted_unique {α : Type} {cmp : α → α → Bool} (hswo : SWO cmp) :
    ∀ (ys zs : List α), ys.Perm zs → SortedLe cmp ys → SortedLe cmp zs →
      (∀ e, ys.filter (eqv cmp e) = zs.filter (eqv cmp e)) → ys = zs := by
  intro ys
  induction ys with
  | nil =>
    intro zs hp _ _ _
    exact (List.Perm.eq_nil hp.symm).symm
  | cons y ys ih =>
    intro zs hp hys hzs hf
    cases zs with
    | nil =>
      have := List.Perm.eq_nil hp
      simp at this
    | cons z zs =>
      have hzin : z ∈ y :: ys := hp.mem_iff.mpr (by simp)
      have hyin : y ∈ z :: zs := hp.mem_iff.mp (by simp)
      have hLzy : cmp z y = false := by
        rcases List.mem_cons.mp hzin with h | h
        · rw [h]
          exact hswo.1 y
        · exact (List.pairwise_cons.mp hys).1 z h
      have hLyz : cmp y z = false := by
        rcases List.mem_cons.mp hyin with h | h
        · rw [h]
          exact hswo.1 z
        · exact (List.pairwise_cons.mp hzs).1 y h
      have heq : y = z := by
        have h1 := hf y
        rw [List.filter_cons_of_pos (by simp [eqv, hswo.1 y]),
          List.filter_cons_of_pos (by simp [eqv, hLzy, hLyz])] at h1
        injection h1 with h1a h1b
      subst heq
      have htails := hp.cons_inv
      have hfil : ∀ e, ys.filter (eqv cmp e) = zs.filter (eqv cmp e) := by
        intro e
        have h1 := hf e
        cases he : eqv cmp e y with
        | true =>
          rw [List.filter_cons_of_pos (by simp [he]),
            List.filter_cons_of_pos (by simp [he])] at h1
          injection h1 with h1a h1b
        | false =>
          rw [List.filter_cons_of_neg (by simp [he]),
            List.filter_cons_of_neg (by simp [he])] at h1
          exact h1
      rw [ih zs htails (List.pairwise_cons.mp hys).2
        (List.pairwise_cons.mp hzs).2 hfil]

/-- Sequential and parallel entry points agree on every input, for every core
count, under a strict weak order. -/
theorem parallel_eq_sequential {α : Type} {cmp : α → α → Bool} (hswo : SWO cmp)
    (cores : Nat) (xs : List α) (h64 : xs.length < 2 ^ 64) :
    parallel_natural_merge_sort cores cmp xs = natural_merge_sort cmp xs := by
  apply stable_sorted_unique hswo
  · exact (parallel_natural_merge_sort_perm cores cmp xs h64).trans
      (natural_merge_sort_perm cmp xs h64).symm
  · exact parallel_natural_merge_sort_sorted hswo cores xs h64
  · exact natural_merge_sort_sorted hswo xs h64
  · intro e
    rw [parallel_natural_merge_sort_filter hswo e cores xs h64,
      natural_merge_sort_filter hswo e xs h64]

/-- On a single strictly descending run the whole sort is the scanner's
in-place reversal: zero merge passes, no pre-copy, no merge iteration, and
the scratch buffer is returned untouched. -/
theorem natural_merge_sort_impl_desc {α : Type} (cmp : α → α → Bool)
    (xs buf : List α) (h2 : 2 ≤ xs.length)
    (hchain : List.Chain' (fun a b => cmp b a = true) xs) :
    natural_merge_sort_impl cmp xs buf = (xs.reverse, buf) := by
  rw [natural_merge_sort_impl_of_ge cmp xs buf (by omega)]
  rw [scanRuns_desc cmp xs h2 hchain]
  simp only [List.map_cons, List.map_nil, List.length_singleton,
    List.flatten_cons, List.flatten_nil, List.append_nil]
  rw [if_neg (by simp [get_pass_amount_one])]
  rfl
/-! ### The run-length queue: UnsafeIntQueue (parallel_natural_merge_sort.h:14-93) -/

/-- MINIMUM_CAPACITY of UnsafeIntQueue (h:16). -/
def MINIMUM_CAPACITY : Nat := 256

/-- The doubling loop of fixCapacity (h:33-36) with explicit fuel; the
requested capacity itself is always enough fuel because s grows by at least
one per round. -/
def fixLoop : Nat → Nat → Nat → Nat
  | 0, s, _ => s
  | f + 1, s, capacity => if s < capacity then fixLoop f (s <<< 1) capacity else s

/-- fixCapacity (h:28-39): raise the requested capacity to at least
MINIMUM_CAPACITY, then round it up to a power of two by doubling from 1. -/
def fixCapacity (capacity : Nat) : Nat :=
  fixLoop (max capacity MINIMUM_CAPACITY) 1 (max capacity MINIMUM_CAPACITY)

/-- State of the unchecked circular integer queue (h:18-22).  The C++ backing
buffer new size_t[capacity] is uninitialized; the model fills it with zeros,
and the representation predicate QueueRepr constrains only the slots that the
verified executions actually read. -/
structure UnsafeIntQueue where
  head : Nat
  tail : Nat
  size : Nat
  mask : Nat
  buffer : List Nat

/-- The constructor (h:47-55). -/
def UnsafeIntQueue.make (capacity : Nat) : UnsafeIntQueue :=
  { head := 0, tail := 0, size := 0, mask := fixCapacity capacity - 1,
    buffer := List.replicate (fixCapacity capacity) 0 }

/-- enqueue (h:68-73); m_size is a size_t, so its increment is taken
mod 2 ^ 64. -/
def UnsafeIntQueue.enqueue (q : UnsafeIntQueue) (element : Nat) : UnsafeIntQueue :=
  { q with buffer := q.buffer.set (q.tail &&& q.mask) element,
           tail := (q.tail + 1) &&& q.mask,
           size := (q.size + 1) % 2 ^ 64 }

/-- dequeue (h:78-84); the unmasked read m_buffer[m_head] is modelled with
getD (in any state satisfying QueueRepr the head is in bounds and the default
is never taken), and the size_t decrement m_size-- is taken mod 2 ^ 64. -/
def UnsafeIntQueue.dequeue (q : UnsafeIntQueue) : Nat × UnsafeIntQueue :=
  (q.buffer.getD q.head 0,
   { q with head := (q.head + 1) &&& q.mask,
            size := (q.size + (2 ^ 64 - 1)) % 2 ^ 64 })

/-- build_run_size_queue (h:100-152): create a queue with requested capacity
length / 2 + 1 (h:105) and enqueue the length of every run in left-to-right
scan order; the scanning loop itself, including the in-place reversal of
every strictly descending run, is the scanner scanRuns, so the function
returns the queue together with the post-scan contents of the range. -/
def build_run_size_queue {α : Type} (cmp : α → α → Bool) (xs : List α) :
    UnsafeIntQueue × List α :=
  (((scanRuns cmp xs).map List.length).foldl (fun q l => q.enqueue l)
      (UnsafeIntQueue.make (xs.length / 2 + 1)),
   (scanRuns cmp xs).flatten)

/-- The first k values dequeued from q, left to right. -/
def dequeueList : UnsafeIntQueue → Nat → List Nat
  | _, 0 => []
  | q, k + 1 => (q.dequeue).1 :: dequeueList (q.dequeue).2 k

theorem fixLoop_pow : ∀ (f s c : Nat), (∃ j, s = 2 ^ j) → ∃ j, fixLoop f s c = 2 ^ j := by
  intro f
  induction f with
  | zero => intro s c hs; exact hs
  | succ f ih =>
    intro s c hs
    simp only [fixLoop]
    split
    · apply ih
      obtain ⟨j, hj⟩ := hs
      exact ⟨j + 1, by rw [hj, Nat.shiftLeft_eq, pow_one, pow_succ]⟩
    · exact hs

theorem fixLoop_ge : ∀ (f s c : Nat), c ≤ f + s → 1 ≤ s → c ≤ fixLoop f s c := by
  intro f
  induction f with
  | zero => intro s c h h1; simpa [fixLoop] using h
  | succ f ih =>
    intro s c h h1
    simp only [fixLoop]
    split
    · apply ih
      · rw [Nat.shiftLeft_eq]
        omega
      · rw [Nat.shiftLeft_eq]
        omega
    · omega

theorem fixLoop_of_ge (f : Nat) {s c : Nat} (h : c ≤ s) : fixLoop f s c = s := by
  cases f with
  | zero => rfl
  | succ f => simp only [fixLoop]; rw [if_neg (by omega)]

theorem fixLoop_lt : ∀ (f s c : Nat), s < c → fixLoop f s c < 2 * c := by
  intro f
  induction f with
  | zero => intro s c h; simp only [fixLoop]; omega
  | succ f ih =>
    intro s c h
    simp only [fixLoop]
    rw [if_pos h, Nat.shiftLeft_eq]
    by_cases h2 : s * 2 ^ 1 < c
    · exact ih _ _ h2
    · rw [fixLoop_of_ge f (by omega)]
      omega

theorem fixCapacity_pow (c : Nat) : ∃ k, fixCapacity c = 2 ^ k :=
  fixLoop_pow _ 1 _ ⟨0, rfl⟩

theorem fixCapacity_ge (c : Nat) : max c MINIMUM_CAPACITY ≤ fixCapacity c :=
  fixLoop_ge _ 1 _ (by omega) le_rfl

theorem fixCapacity_lt (c : Nat) : fixCapacity c < 2 * max c MINIMUM_CAPACITY := by
  apply fixLoop_lt
  have : 256 ≤ max c MINIMUM_CAPACITY := le_max_right c 256
  omega

/-- q holds exactly the values of L, in order, in the circular window of
length size starting at head; the backing buffer has power-of-two length
2 ^ k, the mask is 2 ^ k - 1, and tail = head + size (mod 2 ^ k). -/
def QueueRepr (q : UnsafeIntQueue) (L : List Nat) : Prop :=
  ∃ k : Nat, q.buffer.length = 2 ^ k ∧ q.mask = 2 ^ k - 1 ∧
    q.head < 2 ^ k ∧ q.tail = (q.head + q.size) % 2 ^ k ∧
    q.size = L.length ∧
    ∀ i, i < L.length → q.buffer.getD ((q.head + i) % 2 ^ k) 0 = L.getD i 0

theorem QueueRepr.size_eq {q : UnsafeIntQueue} {L : List Nat}
    (h : QueueRepr q L) : q.size = L.length := by
  obtain ⟨k, -, -, -, -, h5, -⟩ := h
  exact h5

theorem enqueue_buffer_length (q : UnsafeIntQueue) (x : Nat) :
    (q.enqueue x).buffer.length = q.buffer.length :=
  List.length_set q.buffer _ x

theorem mod_add_inj {m a b : Nat} (c : Nat) (ha : a < m) (hb : b < m)
    (he : (c + a) % m = (c + b) % m) : a = b := by
  have h1 : a ≡ b [MOD m] := Nat.ModEq.add_left_cancel' c he
  have h2 : a % m = b % m := h1
  rwa [Nat.mod_eq_of_lt ha, Nat.mod_eq_of_lt hb] at h2

theorem QueueRepr.enqueue {q : UnsafeIntQueue} {L : List Nat}
    (h : QueueRepr q L) (hlt : L.length < q.buffer.length)
    (h64 : L.length + 1 < 2 ^ 64) (x : Nat) :
    QueueRepr (q.enqueue x) (L ++ [x]) := by
  obtain ⟨k, hbl, hmask, hhead, htail, hsize, hwin⟩ := h
  have hL2 : L.length < 2 ^ k := hbl ▸ hlt
  have hset : q.tail &&& q.mask = (q.head + L.length) % 2 ^ k := by
    rw [hmask, Nat.and_pow_two_sub_one_eq_mod, htail, hsize,
      Nat.mod_mod_of_dvd _ dvd_rfl]
  refine ⟨k, ?_, hmask, hhead, ?_, ?_, ?_⟩
  · show (q.buffer.set (q.tail &&& q.mask) x).length = 2 ^ k
    rw [List.length_set, hbl]
  · show (q.tail + 1) &&& q.mask = (q.head + ((q.size + 1) % 2 ^ 64)) % 2 ^ k
    rw [hmask, Nat.and_pow_two_sub_one_eq_mod, htail, Nat.mod_add_mod, hsize,
      Nat.mod_eq_of_lt h64, Nat.add_assoc]
  · show (q.size + 1) % 2 ^ 64 = (L ++ [x]).length
    rw [hsize, Nat.mod_eq_of_lt h64, List.length_append, List.length_cons,
      List.length_nil]
  · intro i hi
    rw [List.length_append, List.length_cons, List.length_nil] at hi
    show (q.buffer.set (q.tail &&& q.mask) x).getD ((q.head + i) % 2 ^ k) 0 =
      (L ++ [x]).getD i 0
    rw [hset]
    by_cases hiL : i < L.length
    · have hne : (q.head + L.length) % 2 ^ k ≠ (q.head + i) % 2 ^ k := by
        intro he
        have : L.length = i := mod_add_inj q.head hL2 (by omega) he
        omega
      rw [List.getD_eq_getElem?_getD, List.getElem?_set_ne hne,
        ← List.getD_eq_getElem?_getD, hwin i hiL, List.getD_eq_getElem?_getD,
        List.getD_eq_getElem?_getD, List.getElem?_append, if_pos hiL]
    · have hiL' : i = L.length := by omega
      subst hiL'
      rw [List.getD_eq_getElem?_getD,
        List.getElem?_set_self (by rw [hbl]; exact Nat.mod_lt _ (Nat.two_pow_pos k)),
        Option.getD_some, List.getD_eq_getElem?_getD, List.getElem?_concat_length,
        Option.getD_some]

theorem QueueRepr.dequeue {q : UnsafeIntQueue} {x : Nat} {L : List Nat}
    (h : QueueRepr q (x :: L)) (h64 : L.length + 1 < 2 ^ 64) :
    (q.dequeue).1 = x ∧ QueueRepr (q.dequeue).2 L := by
  obtain ⟨k, hbl, hmask, hhead, htail, hsize, hwin⟩ := h
  rw [List.length_cons] at hsize
  have hsz' : (q.size + (2 ^ 64 - 1)) % 2 ^ 64 = L.length := by
    rw [hsize, show L.length + 1 + (2 ^ 64 - 1) = L.length + 2 ^ 64 from by omega,
      Nat.add_mod_right, Nat.mod_eq_of_lt (by omega)]
  constructor
  · show q.buffer.getD q.head 0 = x
    have h0 := hwin 0 (by simp)
    rw [Nat.add_zero, Nat.mod_eq_of_lt hhead] at h0
    simpa using h0
  · refine ⟨k, hbl, hmask, ?_, ?_, hsz', ?_⟩
    · show (q.head + 1) &&& q.mask < 2 ^ k
      rw [hmask, Nat.and_pow_two_sub_one_eq_mod]
      exact Nat.mod_lt _ (Nat.two_pow_pos k)
    · show q.tail = (((q.head + 1) &&& q.mask) + ((q.size + (2 ^ 64 - 1)) % 2 ^ 64)) % 2 ^ k
      rw [hmask, Nat.and_pow_two_sub_one_eq_mod, hsz', htail, hsize,
        Nat.mod_add_mod, show q.head + 1 + L.length = q.head + (L.length + 1) from
          by omega]
    · intro i hi
      show q.buffer.getD ((((q.head + 1) &&& q.mask) + i) % 2 ^ k) 0 = L.getD i 0
      rw [hmask, Nat.and_pow_two_sub_one_eq_mod, Nat.mod_add_mod,
        show q.head + 1 + i = q.head + (i + 1) from by omega,
        hwin (i + 1) (by simpa using Nat.succ_lt_succ hi)]
      exact List.getD_cons_succ

theorem queueRepr_make (c : Nat) : QueueRepr (UnsafeIntQueue.make c) [] := by
  obtain ⟨k, hk⟩ := fixCapacity_pow c
  refine ⟨k, ?_, ?_, ?_, ?_, rfl, ?_⟩
  · show (List.replicate (fixCapacity c) 0).length = 2 ^ k
    rw [List.length_replicate, hk]
  · show fixCapacity c - 1 = 2 ^ k - 1
    rw [hk]
  · exact Nat.two_pow_pos k
  · show (0 : Nat) = (0 + 0) % 2 ^ k
    simp
  · intro i hi
    simp at hi

theorem queueRepr_foldl :
    ∀ (L : List Nat) (q : UnsafeIntQueue) (A : List Nat),
      QueueRepr q A → A.length + L.length ≤ q.buffer.length →
      q.buffer.length < 2 ^ 64 →
      QueueRepr (L.foldl (fun q l => q.enqueue l) q) (A ++ L) := by
  intro L
  induction L with
  | nil =>
    intro q A h _ _
    simpa using h
  | cons l ls ih =>
    intro q A h hcap h64
    simp only [List.length_cons] at hcap
    have h1 : QueueRepr (q.enqueue l) (A ++ [l]) :=
      h.enqueue (by omega) (by omega) l
    have h2 := ih (q.enqueue l) (A ++ [l]) h1
      (by rw [enqueue_buffer_length]; simp only [List.length_append,
        List.length_cons, List.length_nil]; omega)
      (by rw [enqueue_buffer_length]; exact h64)
    rw [List.foldl_cons]
    simpa using h2

theorem foldl_enqueue_buffer_length :
    ∀ (L : List Nat) (q : UnsafeIntQueue),
      (L.foldl (fun q l => q.enqueue l) q).buffer.length = q.buffer.length := by
  intro L
  induction L with
  | nil => intro q; rfl
  | cons l ls ih =>
    intro q
    rw [List.foldl_cons, ih, enqueue_buffer_length]

theorem dequeueList_eq :
    ∀ (L : List Nat) (q : UnsafeIntQueue), QueueRepr q L → L.length < 2 ^ 64 →
      dequeueList q L.length = L := by
  intro L
  induction L with
  | nil => intro q _ _; rfl
  | cons x ls ih =>
    intro q h h64
    rw [List.length_cons] at h64
    obtain ⟨hval, hrest⟩ := h.dequeue h64
    simp only [List.length_cons, dequeueList, hval]
    rw [ih _ hrest (by omega)]
/-! ### The merge scheduler on the real queue, with every unchecked queue
operation guarded -/

/-- The scheduler loop of natural_merge_sort_impl (h:227-271) driving the
real UnsafeIntQueue.  Every unchecked queue operation is guarded: the result
is none if an enqueue would exceed the backing buffer or a dequeue would
fire on an empty queue -- exactly the misuses the C++ queue does not check
for (h:10-13). -/
def merge_loopQ {α : Type} (cmp : α → α → Bool) :
    Nat → UnsafeIntQueue → Nat → Nat → List α → List α → Bool →
      Option (List α × List α)
  | 0, _, _, _, source, target, flag => some (exitPair flag source target)
  | fuel + 1, q, runs_left, offset, source, target, flag =>
    if 1 < q.size then
      if q.size = 0 then none
      else if (q.dequeue).2.size = 0 then none
      else
        let l := (q.dequeue).1
        let r := ((q.dequeue).2.dequeue).1
        let q2 := ((q.dequeue).2.dequeue).2
        let target1 := writeSpan target offset
          (mergeLists cmp (spanOf source offset l) (spanOf source (offset + l) r))
        if q2.buffer.length ≤ q2.size then none
        else
          let q3 := q2.enqueue (l + r)
          if runs_left - 2 = 1 then
            if q3.size = 0 then none
            else
              let target2 := writeSpan target1 (offset + l + r)
                (spanOf source (offset + l + r) (q3.dequeue).1)
              if ((q3.dequeue).2).buffer.length ≤ ((q3.dequeue).2).size then none
              else
                let q5 := ((q3.dequeue).2).enqueue (q3.dequeue).1
                merge_loopQ cmp fuel q5 q5.size 0 target2 source (!flag)
          else if runs_left - 2 = 0 then
            merge_loopQ cmp fuel q3 q3.size 0 target1 source (!flag)
          else
            merge_loopQ cmp fuel q3 (runs_left - 2) (offset + l + r) source
              target1 flag
    else some (exitPair flag source target)

theorem merge_loopQ_succ {α : Type} (cmp : α → α → Bool) (fuel : Nat)
    (q : UnsafeIntQueue) (runs_left offset : Nat) (source target : List α)
    (flag : Bool) :
    merge_loopQ cmp (fuel + 1) q runs_left offset source target flag =
      (if 1 < q.size then
        if q.size = 0 then none
        else if (q.dequeue).2.size = 0 then none
        else
          let l := (q.dequeue).1
          let r := ((q.dequeue).2.dequeue).1
          let q2 := ((q.dequeue).2.dequeue).2
          let target1 := writeSpan target offset
            (mergeLists cmp (spanOf source offset l) (spanOf source (offset + l) r))
          if q2.buffer.length ≤ q2.size then none
          else
            let q3 := q2.enqueue (l + r)
            if runs_left - 2 = 1 then
              if q3.size = 0 then none
              else
                let target2 := writeSpan target1 (offset + l + r)
                  (spanOf source (offset + l + r) (q3.dequeue).1)
                if ((q3.dequeue).2).buffer.length ≤ ((q3.dequeue).2).size then none
                else
                  let q5 := ((q3.dequeue).2).enqueue (q3.dequeue).1
                  merge_loopQ cmp fuel q5 q5.size 0 target2 source (!flag)
            else if runs_left - 2 = 0 then
              merge_loopQ cmp fuel q3 q3.size 0 target1 source (!flag)
            else
              merge_loopQ cmp fuel q3 (runs_left - 2) (offset + l + r) source
                target1 flag
      else some (exitPair flag source target)) := rfl

theorem merge_loop_cons_cons_two {α : Type} (cmp : α → α → Bool) (fuel : Nat)
    (l r : Nat) (runs_left offset : Nat) (source target : List α) (flag : Bool)
    (h : runs_left - 2 = 1) :
    merge_loop cmp (fuel + 1) [l, r] runs_left offset source target flag =
      merge_loop cmp fuel [l + r] 1 0
        (writeSpan
          (writeSpan target offset
            (mergeLists cmp (spanOf source offset l) (spanOf source (offset + l) r)))
          (offset + l + r) (spanOf source (offset + l + r) (l + r)))
        source (!flag) := by
  rw [merge_loop_cons_cons, if_pos h]
  rfl
/-- The guarded queue-driven scheduler is a sound refinement of the FIFO-list
scheduler: from any queue state representing the list L (with L within the
backing buffer's capacity), no guard fires and the results agree. -/
theorem merge_loopQ_refines {α : Type} (cmp : α → α → Bool) :
    ∀ (fuel : Nat) (q : UnsafeIntQueue) (L : List Nat) (rl off : Nat)
      (s t : List α) (flag : Bool),
      QueueRepr q L → L.length ≤ q.buffer.length → q.buffer.length < 2 ^ 64 →
      merge_loopQ cmp fuel q rl off s t flag =
        some (merge_loop cmp fuel L rl off s t flag) := by
  intro fuel
  induction fuel with
  | zero =>
    intro q L rl off s t flag _ _ _
    rfl
  | succ fuel ih =>
    intro q L rl off s t flag hrepr hle hcap
    cases L with
    | nil =>
      rw [merge_loopQ_succ, if_neg (by rw [hrepr.size_eq]; simp), merge_loop_nil]
    | cons l L1 =>
      cases L1 with
      | nil =>
        rw [merge_loopQ_succ, if_neg (by rw [hrepr.size_eq]; simp),
          merge_loop_single]
      | cons r rest =>
        have hlen : rest.length + 2 ≤ q.buffer.length := by
          simpa using hle
        have hcap64 : rest.length + 2 < 2 ^ 64 := by omega
        obtain ⟨hv1, hr1⟩ := hrepr.dequeue
          (by simp only [List.length_cons]; omega)
        obtain ⟨hv2, hr2⟩ := hr1.dequeue (by omega)
        have hq2buf : ((q.dequeue).2.dequeue).2.buffer.length = q.buffer.length :=
          rfl
        have hr3 : QueueRepr (((q.dequeue).2.dequeue).2.enqueue (l + r))
            (rest ++ [l + r]) :=
          hr2.enqueue (by rw [hq2buf]; omega) (by omega) (l + r)
        have hq3buf : ((((q.dequeue).2.dequeue).2).enqueue (l + r)).buffer.length =
            q.buffer.length := by
          rw [enqueue_buffer_length]
          exact hq2buf
        rw [merge_loopQ_succ]
        rw [if_pos (show 1 < q.size by
          rw [hrepr.size_eq]; simp only [List.length_cons]; omega)]
        rw [if_neg (show ¬ q.size = 0 by rw [hrepr.size_eq]; simp)]
        rw [if_neg (show ¬ (q.dequeue).2.size = 0 by rw [hr1.size_eq]; simp)]
        simp only []
        rw [hv1, hv2]
        rw [if_neg (show ¬ ((q.dequeue).2.dequeue).2.buffer.length ≤
            ((q.dequeue).2.dequeue).2.size by rw [hr2.size_eq, hq2buf]; omega)]
        by_cases h1 : rl - 2 = 1
        · rw [if_pos h1]
          rw [if_neg (show
            ¬ ((((q.dequeue).2.dequeue).2).enqueue (l + r)).size = 0 by
              rw [hr3.size_eq]; simp)]
          cases rest with
          | nil =>
            rw [List.nil_append] at hr3
            obtain ⟨hv3, hr4⟩ := hr3.dequeue
              (by simp only [List.length_nil]; omega)
            rw [hv3]
            rw [if_neg (show
              ¬ (((((q.dequeue).2.dequeue).2.enqueue (l + r)).dequeue).2.buffer.length ≤
                ((((q.dequeue).2.dequeue).2.enqueue (l + r)).dequeue).2.size) by
                rw [hr4.size_eq]
                show ¬ ((((q.dequeue).2.dequeue).2.enqueue (l + r)).buffer.length ≤
                  ([] : List Nat).length)
                rw [hq3buf]
                simp only [List.length_nil]
                omega)]
            have hr5 : QueueRepr
                (((((q.dequeue).2.dequeue).2.enqueue (l + r)).dequeue).2.enqueue
                  (l + r)) ([] ++ [l + r]) :=
              hr4.enqueue
                (by
                  show ([] : List Nat).length <
                    ((((q.dequeue).2.dequeue).2.enqueue (l + r)).buffer.length)
                  rw [hq3buf]
                  simp only [List.length_nil]
                  omega)
                (by simp only [List.length_nil]; omega) (l + r)
            rw [List.nil_append] at hr5
            have hq5buf : (((((q.dequeue).2.dequeue).2.enqueue (l + r)).dequeue).2.enqueue
                (l + r)).buffer.length = q.buffer.length := by
              rw [enqueue_buffer_length]
              exact hq3buf
            rw [hr5.size_eq, List.length_singleton]
            rw [merge_loop_cons_cons_two cmp fuel l r rl off s t flag h1]
            refine ih _ [l + r] _ _ _ _ _ hr5 ?_ ?_
            · rw [hq5buf, List.length_singleton]
              omega
            · rw [hq5buf]
              exact hcap
          | cons s0 rest' =>
            have hre : (rest' ++ [l + r]).length = rest'.length + 1 := by simp
            rw [show (s0 :: rest') ++ [l + r] = s0 :: (rest' ++ [l + r]) from
              rfl] at hr3
            obtain ⟨hv3, hr4⟩ := hr3.dequeue
              (by rw [hre]; simp only [List.length_cons] at hcap64; omega)
            rw [hv3]
            rw [if_neg (show
              ¬ (((((q.dequeue).2.dequeue).2.enqueue (l + r)).dequeue).2.buffer.length ≤
                ((((q.dequeue).2.dequeue).2.enqueue (l + r)).dequeue).2.size) by
                rw [hr4.size_eq]
                show ¬ ((((q.dequeue).2.dequeue).2.enqueue (l + r)).buffer.length ≤
                  (rest' ++ [l + r]).length)
                rw [hq3buf, hre]
                simp only [List.length_cons] at hlen
                omega)]
            have hr5 : QueueRepr
                (((((q.dequeue).2.dequeue).2.enqueue (l + r)).dequeue).2.enqueue s0)
                ((rest' ++ [l + r]) ++ [s0]) :=
              hr4.enqueue
                (by
                  show (rest' ++ [l + r]).length <
                    ((((q.dequeue).2.dequeue).2.enqueue (l + r)).buffer.length)
                  rw [hq3buf, hre]
                  simp only [List.length_cons] at hlen
                  omega)
                (by rw [hre]; simp only [List.length_cons] at hcap64; omega) s0
            have hq5buf : (((((q.dequeue).2.dequeue).2.enqueue (l + r)).dequeue).2.enqueue
                s0).buffer.length = q.buffer.length := by
              rw [enqueue_buffer_length]
              exact hq3buf
            rw [hr5.size_eq]
            rw [merge_loop_cons_cons_case1 cmp fuel l r s0 rest' rl off s t flag h1]
            refine ih _ ((rest' ++ [l + r]) ++ [s0]) _ _ _ _ _ hr5 ?_ ?_
            · rw [hq5buf]
              simp only [List.length_append, List.length_cons, List.length_nil]
                at hlen ⊢
              omega
            · rw [hq5buf]
              exact hcap
        · by_cases h0 : rl - 2 = 0
          · rw [if_neg h1, if_pos h0]
            rw [hr3.size_eq]
            rw [merge_loop_cons_cons_case0 cmp fuel l r rest rl off s t flag h0]
            refine ih _ (rest ++ [l + r]) _ _ _ _ _ hr3 ?_ ?_
            · rw [hq3buf]
              simp only [List.length_append, List.length_cons, List.length_nil]
              omega
            · rw [hq3buf]
              exact hcap
          · rw [if_neg h1, if_neg h0]
            rw [merge_loop_cons_cons_main cmp fuel l r rest rl off s t flag h1 h0]
            refine ih _ (rest ++ [l + r]) _ _ _ _ _ hr3 ?_ ?_
            · rw [hq3buf]
              simp only [List.length_append, List.length_cons, List.length_nil]
              omega
            · rw [hq3buf]
              exact hcap
/-- Bulk enqueue of the scanned run lengths, with the capacity check the C++
queue omits: none at the first enqueue that would overflow the buffer. -/
def enqueueAllChk : List Nat → UnsafeIntQueue → Option UnsafeIntQueue
  | [], q => some q
  | l :: ls, q =>
    if q.buffer.length ≤ q.size then none else enqueueAllChk ls (q.enqueue l)

/-- natural_merge_sort_impl driving the real queue with every queue operation
checked: build the run-size queue by checked enqueues, read its size for the
pass count, the loop bound and the fuel, and run the guarded scheduler. -/
def natural_merge_sort_implQ {α : Type} (cmp : α → α → Bool)
    (xs buffer : List α) : Option (List α × List α) :=
  if xs.length < 2 then some (xs, buffer)
  else
    (enqueueAllChk ((scanRuns cmp xs).map List.length)
        (UnsafeIntQueue.make (xs.length / 2 + 1))).bind (fun q =>
      if get_pass_amount q.size &&& 1 = 1 then
        merge_loopQ cmp q.size q q.size 0 ((scanRuns cmp xs).flatten)
          ((scanRuns cmp xs).flatten) false
      else
        merge_loopQ cmp q.size q q.size 0 ((scanRuns cmp xs).flatten) buffer
          true)

/-- The fully checked sequential sort: some ↔ no unchecked queue operation
ever misfires. -/
def natural_merge_sortQ {α : Type} (cmp : α → α → Bool) (xs : List α) :
    Option (List α) :=
  if xs.length < 2 then some xs
  else (natural_merge_sort_implQ cmp xs xs).map (fun p => p.1)

theorem enqueueAllChk_eq :
    ∀ (L : List Nat) (q : UnsafeIntQueue),
      q.size + L.length ≤ q.buffer.length → q.buffer.length < 2 ^ 64 →
      enqueueAllChk L q = some (L.foldl (fun q l => q.enqueue l) q) := by
  intro L
  induction L with
  | nil => intro q _ _; rfl
  | cons l ls ih =>
    intro q h h64
    simp only [List.length_cons] at h
    simp only [enqueueAllChk]
    rw [if_neg (by omega), List.foldl_cons]
    apply ih
    · rw [enqueue_buffer_length]
      have hsz : (q.enqueue l).size = q.size + 1 := by
        show (q.size + 1) % 2 ^ 64 = q.size + 1
        exact Nat.mod_eq_of_lt (by omega)
      rw [hsz]
      omega
    · rw [enqueue_buffer_length]
      exact h64

theorem make_buffer_length (c : Nat) :
    (UnsafeIntQueue.make c).buffer.length = fixCapacity c := by
  show (List.replicate (fixCapacity c) 0).length = _
  rw [List.length_replicate]

/-- The requested capacity length / 2 + 1 always accommodates the scanned
runs (there are at most (length + 1) / 2 of them), and for a 64-bit length
the fixed-up capacity still fits in a size_t. -/
theorem build_capacity_bound {α : Type} (cmp : α → α → Bool) (xs : List α)
    (h64 : xs.length < 2 ^ 64) :
    (scanRuns cmp xs).length ≤ fixCapacity (xs.length / 2 + 1) ∧
    fixCapacity (xs.length / 2 + 1) < 2 ^ 64 := by
  have hcount := scanRuns_count cmp xs
  have hge := fixCapacity_ge (xs.length / 2 + 1)
  have hlt := fixCapacity_lt (xs.length / 2 + 1)
  constructor
  · have h1 : xs.length / 2 + 1 ≤ fixCapacity (xs.length / 2 + 1) :=
      le_trans (le_max_left _ _) hge
    omega
  · have h1 : max (xs.length / 2 + 1) MINIMUM_CAPACITY ≤ 2 ^ 63 := by
      apply max_le
      · omega
      · show (256 : Nat) ≤ 2 ^ 63
        norm_num
    omega

/-- The queue built by build_run_size_queue holds exactly the run lengths in
scan order. -/
theorem build_queue_repr {α : Type} (cmp : α → α → Bool) (xs : List α)
    (h64 : xs.length < 2 ^ 64) :
    QueueRepr (build_run_size_queue cmp xs).1
      ((scanRuns cmp xs).map List.length) := by
  obtain ⟨hcap1, hcap2⟩ := build_capacity_bound cmp xs h64
  have h := queueRepr_foldl ((scanRuns cmp xs).map List.length)
    (UnsafeIntQueue.make (xs.length / 2 + 1)) [] (queueRepr_make _)
    (by rw [make_buffer_length]; simp only [List.length_nil, List.length_map]
        omega)
    (by rw [make_buffer_length]; exact hcap2)
  simpa using h

theorem build_queue_size {α : Type} (cmp : α → α → Bool) (xs : List α)
    (h64 : xs.length < 2 ^ 64) :
    (build_run_size_queue cmp xs).1.size = (scanRuns cmp xs).length := by
  rw [(build_queue_repr cmp xs h64).size_eq, List.length_map]

/-- Dequeuing the built queue to exhaustion returns the run lengths in
left-to-right scan order. -/
theorem build_queue_dequeue_order {α : Type} (cmp : α → α → Bool)
    (xs : List α) (h64 : xs.length < 2 ^ 64) :
    dequeueList (build_run_size_queue cmp xs).1
        ((build_run_size_queue cmp xs).1.size) =
      (scanRuns cmp xs).map List.length := by
  have hr := build_queue_repr cmp xs h64
  have hcount := scanRuns_count cmp xs
  rw [hr.size_eq]
  exact dequeueList_eq _ _ hr (by rw [List.length_map]; omega)

theorem natural_merge_sort_implQ_eq {α : Type} (cmp : α → α → Bool)
    (xs buffer : List α) (h64 : xs.length < 2 ^ 64) :
    natural_merge_sort_implQ cmp xs buffer =
      some (natural_merge_sort_impl cmp xs buffer) := by
  by_cases h2 : xs.length < 2
  · rw [natural_merge_sort_implQ, if_pos h2, natural_merge_sort_impl, if_pos h2]
  · obtain ⟨hcap1, hcap2⟩ := build_capacity_bound cmp xs h64
    have hrepr := build_queue_repr cmp xs h64
    have hQbuf : (build_run_size_queue cmp xs).1.buffer.length =
        fixCapacity (xs.length / 2 + 1) := by
      show (((scanRuns cmp xs).map List.length).foldl (fun q l => q.enqueue l)
        (UnsafeIntQueue.make (xs.length / 2 + 1))).buffer.length = _
      rw [foldl_enqueue_buffer_length, make_buffer_length]
    have hchk : enqueueAllChk ((scanRuns cmp xs).map List.length)
        (UnsafeIntQueue.make (xs.length / 2 + 1)) =
        some ((build_run_size_queue cmp xs).1) := by
      apply enqueueAllChk_eq
      · show 0 + ((scanRuns cmp xs).map List.length).length ≤
          (UnsafeIntQueue.make (xs.length / 2 + 1)).buffer.length
        rw [make_buffer_length]
        simp only [List.length_map, Nat.zero_add]
        exact hcap1
      · rw [make_buffer_length]
        exact hcap2
    rw [natural_merge_sort_implQ, if_neg h2,
      natural_merge_sort_impl_of_ge cmp xs buffer h2, hchk, Option.some_bind,
      hrepr.size_eq, List.length_map]
    have hlen : ((scanRuns cmp xs).map List.length).length ≤
        (build_run_size_queue cmp xs).1.buffer.length := by
      rw [hQbuf, List.length_map]
      exact hcap1
    have hcap' : (build_run_size_queue cmp xs).1.buffer.length < 2 ^ 64 := by
      rw [hQbuf]
      exact hcap2
    by_cases hpar :
      get_pass_amount (scanRuns cmp xs).length &&& 1 = 1
    · rw [if_pos hpar, if_pos hpar]
      have h := merge_loopQ_refines cmp (scanRuns cmp xs).length
        (build_run_size_queue cmp xs).1 ((scanRuns cmp xs).map List.length)
        (scanRuns cmp xs).length 0 ((scanRuns cmp xs).flatten)
        ((scanRuns cmp xs).flatten) false hrepr hlen hcap'
      rw [h]
    · rw [if_neg hpar, if_neg hpar]
      have h := merge_loopQ_refines cmp (scanRuns cmp xs).length
        (build_run_size_queue cmp xs).1 ((scanRuns cmp xs).map List.length)
        (scanRuns cmp xs).length 0 ((scanRuns cmp xs).flatten) buffer true
        hrepr hlen hcap'
      rw [h]

/-- The fully checked sequential sort never hits a guard and agrees with the
unchecked model. -/
theorem natural_merge_sortQ_eq {α : Type} (cmp : α → α → Bool) (xs : List α)
    (h64 : xs.length < 2 ^ 64) :
    natural_merge_sortQ cmp xs = some (natural_merge_sort cmp xs) := by
  by_cases h2 : xs.length < 2
  · rw [natural_merge_sortQ, if_pos h2, natural_merge_sort, if_pos h2]
  · rw [natural_merge_sortQ, if_neg h2, natural_merge_sort, if_neg h2,
      natural_merge_sort_implQ_eq cmp xs xs h64, Option.map_some']
/-! ### Claim theorems -/

/-- The ascending order on Nat is a strict weak order. -/
theorem swo_lt_nat : SWO (fun a b : Nat => decide (a < b)) := by
  refine ⟨fun a => by simp, fun a b c hab hbc => ?_, fun a b c h1 h2 h3 h4 => ?_⟩
  · simp only [decide_eq_true_eq] at hab hbc ⊢
    omega
  · simp only [decide_eq_false_iff_not] at h1 h2 h3 h4 ⊢
    omega

/-- Comparing key-value pairs by numeric key only is a strict weak order. -/
theorem swo_fst_lt : SWO (fun p q : Nat × String => decide (p.1 < q.1)) := by
  refine ⟨fun a => by simp, fun a b c hab hbc => ?_, fun a b c h1 h2 h3 h4 => ?_⟩
  · simp only [decide_eq_true_eq] at hab hbc ⊢
    omega
  · simp only [decide_eq_false_iff_not] at h1 h2 h3 h4 ⊢
    omega

theorem build_queue_buffer_length {α : Type} (cmp : α → α → Bool)
    (xs : List α) :
    (build_run_size_queue cmp xs).1.buffer.length =
      fixCapacity (xs.length / 2 + 1) := by
  show (((scanRuns cmp xs).map List.length).foldl (fun q l => q.enqueue l)
    (UnsafeIntQueue.make (xs.length / 2 + 1))).buffer.length = _
  rw [foldl_enqueue_buffer_length, make_buffer_length]

/-- C1: for every input sequence of 64-bit length and every comparator
defining a strict weak order, after either entry point (natural_merge_sort
or parallel_natural_merge_sort) the sequence is non-decreasing under the
comparator. -/
theorem claim_C1 {α : Type} (cmp : α → α → Bool) (hswo : SWO cmp)
    (cores : Nat) (xs : List α) (h64 : xs.length < 2 ^ 64) :
    NonDecr cmp (natural_merge_sort cmp xs) ∧
    NonDecr cmp (parallel_natural_merge_sort cores cmp xs) :=
  ⟨(natural_merge_sort_sorted hswo xs h64).nonDecr,
   (parallel_natural_merge_sort_sorted hswo cores xs h64).nonDecr⟩

theorem claim_C1_witness :
    SWO (fun a b : Nat => decide (a < b)) ∧
    ([3, 1, 2] : List Nat).length < 2 ^ 64 ∧
    (NonDecr (fun a b : Nat => decide (a < b))
        (natural_merge_sort (fun a b : Nat => decide (a < b)) [3, 1, 2]) ∧
      NonDecr (fun a b : Nat => decide (a < b))
        (parallel_natural_merge_sort 4 (fun a b : Nat => decide (a < b))
          [3, 1, 2])) :=
  ⟨swo_lt_nat, by decide,
   claim_C1 (fun a b : Nat => decide (a < b)) swo_lt_nat 4 [3, 1, 2] (by decide)⟩

/-- C2: for every input sequence of 64-bit length and every comparator, the
output of either entry point is a permutation of the input (equal multisets:
nothing is dropped, duplicated, or fabricated) and the length of the range
is unchanged. -/
theorem claim_C2 {α : Type} (cmp : α → α → Bool) (cores : Nat) (xs : List α)
    (h64 : xs.length < 2 ^ 64) :
    (natural_merge_sort cmp xs).Perm xs ∧
    (parallel_natural_merge_sort cores cmp xs).Perm xs ∧
    (natural_merge_sort cmp xs).length = xs.length ∧
    (parallel_natural_merge_sort cores cmp xs).length = xs.length := by
  have h1 := natural_merge_sort_perm cmp xs h64
  have h2 := parallel_natural_merge_sort_perm cores cmp xs h64
  exact ⟨h1, h2, h1.length_eq, h2.length_eq⟩

theorem claim_C2_witness :
    ([2, 1] : List Nat).length < 2 ^ 64 ∧
    ((natural_merge_sort (fun a b : Nat => decide (a < b)) [2, 1]).Perm [2, 1] ∧
      (parallel_natural_merge_sort 4 (fun a b : Nat => decide (a < b))
        [2, 1]).Perm [2, 1] ∧
      (natural_merge_sort (fun a b : Nat => decide (a < b)) [2, 1]).length =
        ([2, 1] : List Nat).length ∧
      (parallel_natural_merge_sort 4 (fun a b : Nat => decide (a < b))
        [2, 1]).length = ([2, 1] : List Nat).length) :=
  ⟨by decide, claim_C2 (fun a b : Nat => decide (a < b)) 4 [2, 1] (by decide)⟩

/-- C3 (amended): the original claim quantifies over every comparator; for a
comparator that is not a strict weak order the sort is not stable (see the
counterexample).  For every strict-weak-order comparator both entry points
are stable, in the filter formulation: the subsequence of elements
equivalent to any pivot e (comparator false both ways) is exactly the same,
in the same order, before and after sorting. -/
theorem claim_C3 {α : Type} (cmp : α → α → Bool) (hswo : SWO cmp)
    (cores : Nat) (e : α) (xs : List α) (h64 : xs.length < 2 ^ 64) :
    (natural_merge_sort cmp xs).filter (eqv cmp e) = xs.filter (eqv cmp e) ∧
    (parallel_natural_merge_sort cores cmp xs).filter (eqv cmp e) =
      xs.filter (eqv cmp e) :=
  ⟨natural_merge_sort_filter hswo e xs h64,
   parallel_natural_merge_sort_filter hswo e cores xs h64⟩

theorem claim_C3_witness :
    SWO (fun p q : Nat × String => decide (p.1 < q.1)) ∧
    ([(3, "a"), (1, "b"), (3, "c"), (2, "d")] : List (Nat × String)).length <
      2 ^ 64 ∧
    ((natural_merge_sort (fun p q : Nat × String => decide (p.1 < q.1))
        [(3, "a"), (1, "b"), (3, "c"), (2, "d")]).filter
          (eqv (fun p q : Nat × String => decide (p.1 < q.1)) (3, "z")) =
      ([(3, "a"), (1, "b"), (3, "c"), (2, "d")] : List (Nat × String)).filter
        (eqv (fun p q : Nat × String => decide (p.1 < q.1)) (3, "z")) ∧
      (parallel_natural_merge_sort 0
          (fun p q : Nat × String => decide (p.1 < q.1))
          [(3, "a"), (1, "b"), (3, "c"), (2, "d")]).filter
            (eqv (fun p q : Nat × String => decide (p.1 < q.1)) (3, "z")) =
        ([(3, "a"), (1, "b"), (3, "c"), (2, "d")] : List (Nat × String)).filter
          (eqv (fun p q : Nat × String => decide (p.1 < q.1)) (3, "z"))) ∧
    natural_merge_sort (fun p q : Nat × String => decide (p.1 < q.1))
        [(3, "a"), (1, "b"), (3, "c"), (2, "d")] =
      [(1, "b"), (2, "d"), (3, "a"), (3, "c")] :=
  ⟨swo_fst_lt, by decide,
   claim_C3 (fun p q : Nat × String => decide (p.1 < q.1)) swo_fst_lt 0
     (3, "z") [(3, "a"), (1, "b"), (3, "c"), (2, "d")] (by decide),
   by decide⟩

/-- C3 counterexample: with a comparator that is not a strict weak order
(cmp 2 1, cmp 2 0 and cmp 3 0 true, everything else false), sorting
[0, 1, 2, 3] is not stable: 1 and 3 are equivalent under the comparator but
their relative order is inverted, so the filter identity fails at pivot 1. -/
theorem claim_C3_counterexample :
    ¬ (∀ (cmp : Nat → Nat → Bool) (e : Nat) (xs : List Nat),
        xs.length < 2 ^ 64 →
        (natural_merge_sort cmp xs).filter (eqv cmp e) =
          xs.filter (eqv cmp e)) := by
  intro h
  exact absurd
    (h (fun a b => decide ((a = 2 ∧ b = 1) ∨ (a = 2 ∧ b = 0) ∨ (a = 3 ∧ b = 0)))
      1 [0, 1, 2, 3] (by decide))
    (by decide)

/-- C4: for the same 64-bit-length input and the same strict-weak-order
comparator, the sequential and parallel entry points produce identical
output sequences. -/
theorem claim_C4 {α : Type} (cmp : α → α → Bool) (hswo : SWO cmp)
    (cores : Nat) (xs : List α) (h64 : xs.length < 2 ^ 64) :
    parallel_natural_merge_sort cores cmp xs = natural_merge_sort cmp xs :=
  parallel_eq_sequential hswo cores xs h64

theorem claim_C4_witness :
    SWO (fun a b : Nat => decide (a < b)) ∧
    ([2, 1, 3] : List Nat).length < 2 ^ 64 ∧
    parallel_natural_merge_sort 8 (fun a b : Nat => decide (a < b)) [2, 1, 3] =
      natural_merge_sort (fun a b : Nat => decide (a < b)) [2, 1, 3] :=
  ⟨swo_lt_nat, by decide,
   claim_C4 (fun a b : Nat => decide (a < b)) swo_lt_nat 8 [2, 1, 3] (by decide)⟩

/-- C5: for a range of length at least 2 (and a scratch buffer of the same
length), natural_merge_sort_impl precomputes the pass count from the scanned
run queue and branches on its parity before any merging -- pre-copying the
scanned data into the scratch buffer exactly when the count is odd, so that
the loop starts with source = scratch -- and when the loop terminates the
fully sorted permutation of the input occupies the caller-visible first
component (the range [first, last)) while the scratch buffer component keeps
the range's length, under a strict-weak-order comparator. -/
theorem claim_C5 {α : Type} (cmp : α → α → Bool) (hswo : SWO cmp)
    (xs buf : List α) (h2 : 2 ≤ xs.length) (h64 : xs.length < 2 ^ 64)
    (hbuf : buf.length = xs.length) :
    natural_merge_sort_impl cmp xs buf =
      (if get_pass_amount ((scanRuns cmp xs).map List.length).length &&& 1 = 1
       then
        merge_loop cmp ((scanRuns cmp xs).map List.length).length
          ((scanRuns cmp xs).map List.length)
          ((scanRuns cmp xs).map List.length).length 0
          ((scanRuns cmp xs).flatten) ((scanRuns cmp xs).flatten) false
       else
        merge_loop cmp ((scanRuns cmp xs).map List.length).length
          ((scanRuns cmp xs).map List.length)
          ((scanRuns cmp xs).map List.length).length 0
          ((scanRuns cmp xs).flatten) buf true) ∧
    SortedLe cmp (natural_merge_sort_impl cmp xs buf).1 ∧
    ((natural_merge_sort_impl cmp xs buf).1).Perm xs ∧
    (natural_merge_sort_impl cmp xs buf).2.length = xs.length := by
  refine ⟨natural_merge_sort_impl_of_ge cmp xs buf (by omega), ?_, ?_, ?_⟩
  · exact natural_merge_sort_impl_first_sorted hswo xs buf h64 hbuf
  · exact natural_merge_sort_impl_first_perm cmp xs buf h64 hbuf
  · exact (natural_merge_sort_impl_spec cmp xs buf h2 h64 hbuf).2

theorem claim_C5_witness :
    SWO (fun a b : Nat => decide (a < b)) ∧
    2 ≤ ([2, 1, 3] : List Nat).length ∧
    ([2, 1, 3] : List Nat).length < 2 ^ 64 ∧
    ([0, 0, 0] : List Nat).length = ([2, 1, 3] : List Nat).length ∧
    (SortedLe (fun a b : Nat => decide (a < b))
        (natural_merge_sort_impl (fun a b : Nat => decide (a < b))
          [2, 1, 3] [0, 0, 0]).1 ∧
      ((natural_merge_sort_impl (fun a b : Nat => decide (a < b))
          [2, 1, 3] [0, 0, 0]).1).Perm [2, 1, 3] ∧
      (natural_merge_sort_impl (fun a b : Nat => decide (a < b))
        [2, 1, 3] [0, 0, 0]).2.length = ([2, 1, 3] : List Nat).length) :=
  ⟨swo_lt_nat, by decide, by decide, by decide,
   (claim_C5 (fun a b : Nat => decide (a < b)) swo_lt_nat [2, 1, 3] [0, 0, 0]
     (by decide) (by decide) (by decide)).2⟩

/-- C6: for every range of length at least 2 (64-bit length) and every
strict-weak-order comparator, the queue built by build_run_size_queue
dequeues exactly the run lengths in left-to-right scan order, and those
lengths sum to the length of the range. -/
theorem claim_C6 {α : Type} (cmp : α → α → Bool) (hswo : SWO cmp)
    (xs : List α) (h2 : 2 ≤ xs.length) (h64 : xs.length < 2 ^ 64) :
    dequeueList (build_run_size_queue cmp xs).1
        ((build_run_size_queue cmp xs).1.size) =
      (scanRuns cmp xs).map List.length ∧
    ((scanRuns cmp xs).map List.length).sum = xs.length :=
  ⟨build_queue_dequeue_order cmp xs h64, scanRuns_sum_lengths cmp xs⟩

theorem claim_C6_witness :
    SWO (fun a b : Nat => decide (a < b)) ∧
    2 ≤ ([3, 1, 2] : List Nat).length ∧
    ([3, 1, 2] : List Nat).length < 2 ^ 64 ∧
    (dequeueList
        (build_run_size_queue (fun a b : Nat => decide (a < b)) [3, 1, 2]).1
        ((build_run_size_queue (fun a b : Nat => decide (a < b))
          [3, 1, 2]).1.size) =
      (scanRuns (fun a b : Nat => decide (a < b)) [3, 1, 2]).map List.length ∧
      ((scanRuns (fun a b : Nat => decide (a < b)) [3, 1, 2]).map
        List.length).sum = ([3, 1, 2] : List Nat).length) :=
  ⟨swo_lt_nat, by decide, by decide,
   claim_C6 (fun a b : Nat => decide (a < b)) swo_lt_nat [3, 1, 2] (by decide)
     (by decide)⟩

/-- C7 (amended): on [5,4,3,2,1,2,3,4] under the ascending comparator the
scanner detects one strictly descending run of length 5 followed by one
ascending run of length 3 (not 4 as claimed: the second run is 2,3,4), the
queue dequeues 5 then 3, and the in-place reversal turns the range into
[1,2,3,4,5,2,3,4]; the reversal reorders no equal elements since the five
values of the descending run are pairwise distinct. -/
theorem claim_C7 :
    scanRuns (fun a b : Nat => decide (a < b)) [5, 4, 3, 2, 1, 2, 3, 4] =
      [[1, 2, 3, 4, 5], [2, 3, 4]] ∧
    (build_run_size_queue (fun a b : Nat => decide (a < b))
      [5, 4, 3, 2, 1, 2, 3, 4]).1.size = 2 ∧
    dequeueList (build_run_size_queue (fun a b : Nat => decide (a < b))
      [5, 4, 3, 2, 1, 2, 3, 4]).1 2 = [5, 3] ∧
    (build_run_size_queue (fun a b : Nat => decide (a < b))
      [5, 4, 3, 2, 1, 2, 3, 4]).2 = [1, 2, 3, 4, 5, 2, 3, 4] := by
  decide

/-- C7 counterexample: the queue does NOT dequeue 5 then 4 on that input;
the second run has length 3. -/
theorem claim_C7_counterexample :
    ¬ (dequeueList (build_run_size_queue (fun a b : Nat => decide (a < b))
        [5, 4, 3, 2, 1, 2, 3, 4]).1 2 = [5, 4]) := by
  decide

/-- C8 (amended): for every range of 64-bit length at least 2 and every
comparator, the run-length queue's backing capacity is a power of two that
is at least the number of pending run lengths right after the scan (which is
itself at most length / 2 + 1), and consequently the fully checked sort --
in which every unchecked enqueue is guarded against buffer overflow and
every unchecked dequeue against an empty queue -- never trips a guard and
returns the unchecked model's result.  The original "at least one greater
than the pending count" bound is refuted by the counterexample: a 511
element range can produce 256 runs while the capacity is exactly 256. -/
theorem claim_C8 {α : Type} (cmp : α → α → Bool) (xs : List α)
    (h2 : 2 ≤ xs.length) (h64 : xs.length < 2 ^ 64) :
    (∃ k, (build_run_size_queue cmp xs).1.buffer.length = 2 ^ k) ∧
    (scanRuns cmp xs).length ≤ xs.length / 2 + 1 ∧
    (scanRuns cmp xs).length ≤ (build_run_size_queue cmp xs).1.buffer.length ∧
    natural_merge_sortQ cmp xs = some (natural_merge_sort cmp xs) := by
  refine ⟨?_, ?_, ?_, natural_merge_sortQ_eq cmp xs h64⟩
  · rw [build_queue_buffer_length]
    exact fixCapacity_pow _
  · have := scanRuns_count cmp xs
    omega
  · rw [build_queue_buffer_length]
    exact (build_capacity_bound cmp xs h64).1

theorem claim_C8_witness :
    2 ≤ ([3, 1, 2, 5] : List Nat).length ∧
    ([3, 1, 2, 5] : List Nat).length < 2 ^ 64 ∧
    ((∃ k, (build_run_size_queue (fun a b : Nat => decide (a < b))
        [3, 1, 2, 5]).1.buffer.length = 2 ^ k) ∧
      (scanRuns (fun a b : Nat => decide (a < b)) [3, 1, 2, 5]).length ≤
        ([3, 1, 2, 5] : List Nat).length / 2 + 1 ∧
      (scanRuns (fun a b : Nat => decide (a < b)) [3, 1, 2, 5]).length ≤
        (build_run_size_queue (fun a b : Nat => decide (a < b))
          [3, 1, 2, 5]).1.buffer.length ∧
      natural_merge_sortQ (fun a b : Nat => decide (a < b)) [3, 1, 2, 5] =
        some (natural_merge_sort (fun a b : Nat => decide (a < b))
          [3, 1, 2, 5])) :=
  ⟨by decide, by decide,
   claim_C8 (fun a b : Nat => decide (a < b)) [3, 1, 2, 5] (by decide)
     (by decide)⟩

/-- C8 counterexample: on the 511-element range 1,0,1,0,...,1,0,5 the scan
produces 256 runs while the backing capacity is fixCapacity (511 / 2 + 1) =
256, so the capacity is NOT at least one greater than the number of pending
run lengths right after the scan. -/
theorem claim_C8_counterexample :
    ¬ (∀ (xs : List Nat), 2 ≤ xs.length →
        (scanRuns (fun a b : Nat => decide (a < b)) xs).length + 1 ≤
          (build_run_size_queue (fun a b : Nat => decide (a < b))
            xs).1.buffer.length) := by
  intro h
  exact absurd
    (h ((List.range 510).map (fun i => if i % 2 = 0 then 1 else 0) ++ [5])
      (by decide))
    (by decide)

/-- C9: for every run count r with 1 ≤ r < 2^64, get_pass_amount r equals
the ceiling of log2 r (Nat.clog 2 r); in particular get_pass_amount 1 = 0,
so a single-run input needs no merge pass. -/
theorem claim_C9 (r : Nat) (h1 : 1 ≤ r) (h64 : r < 2 ^ 64) :
    get_pass_amount r = Nat.clog 2 r ∧ get_pass_amount 1 = 0 :=
  ⟨get_pass_amount_eq_clog h1 h64, get_pass_amount_one⟩

theorem claim_C9_witness :
    1 ≤ 5 ∧ 5 < 2 ^ 64 ∧
    (get_pass_amount 5 = Nat.clog 2 5 ∧ get_pass_amount 1 = 0) :=
  ⟨by decide, by decide, claim_C9 5 (by decide) (by decide)⟩

/-- C10: an input range of length at least 2 that is one single strictly
descending run is sorted entirely by the scanner's in-place reversal: the
scan yields the one reversed run, the computed pass count is 0 (so the
parity is even and the input is not pre-copied), the merge loop body never
executes, the scratch buffer is returned untouched, and the caller range
holds xs.reverse -- which is sorted whenever the comparator is a strict
weak order. -/
theorem claim_C10 {α : Type} (cmp : α → α → Bool) (xs buf : List α)
    (h2 : 2 ≤ xs.length) (h64 : xs.length < 2 ^ 64)
    (hchain : List.Chain' (fun a b => cmp b a = true) xs) :
    scanRuns cmp xs = [xs.reverse] ∧
    get_pass_amount (scanRuns cmp xs).length = 0 ∧
    natural_merge_sort_impl cmp xs buf = (xs.reverse, buf) ∧
    natural_merge_sort cmp xs = xs.reverse ∧
    (SWO cmp → SortedLe cmp xs.reverse) := by
  have hs := scanRuns_desc cmp xs h2 hchain
  have h4 : natural_merge_sort cmp xs = xs.reverse := by
    rw [natural_merge_sort, if_neg (by omega),
      natural_merge_sort_impl_desc cmp xs xs h2 hchain]
  refine ⟨hs, ?_, natural_merge_sort_impl_desc cmp xs buf h2 hchain, h4, ?_⟩
  · rw [hs, List.length_singleton]
    exact get_pass_amount_one
  · intro hswo
    have h5 := natural_merge_sort_sorted hswo xs h64
    rwa [h4] at h5

theorem claim_C10_witness :
    2 ≤ ([3, 2, 1] : List Nat).length ∧
    ([3, 2, 1] : List Nat).length < 2 ^ 64 ∧
    List.Chain' (fun a b => (fun a b : Nat => decide (a < b)) b a = true)
      [3, 2, 1] ∧
    (scanRuns (fun a b : Nat => decide (a < b)) [3, 2, 1] =
        [([3, 2, 1] : List Nat).reverse] ∧
      get_pass_amount
        (scanRuns (fun a b : Nat => decide (a < b)) [3, 2, 1]).length = 0 ∧
      natural_merge_sort_impl (fun a b : Nat => decide (a < b)) [3, 2, 1]
        [7, 8, 9] = (([3, 2, 1] : List Nat).reverse, [7, 8, 9]) ∧
      natural_merge_sort (fun a b : Nat => decide (a < b)) [3, 2, 1] =
        ([3, 2, 1] : List Nat).reverse ∧
      (SWO (fun a b : Nat => decide (a < b)) →
        SortedLe (fun a b : Nat => decide (a < b))
          ([3, 2, 1] : List Nat).reverse)) :=
  ⟨by decide, by decide,
   List.chain'_cons.mpr ⟨by decide,
     List.chain'_cons.mpr ⟨by decide, List.chain'_singleton 1⟩⟩,
   claim_C10 (fun a b : Nat => decide (a < b)) [3, 2, 1] [7, 8, 9] (by decide)
     (by decide)
     (List.chain'_cons.mpr ⟨by decide,
       List.chain'_cons.mpr ⟨by decide, List.chain'_singleton 1⟩⟩)⟩

end Pnms
